import Mathlib

/-!
Verification development for the "october" sparse spatial tree library:
geometry primitives (epsilon-tolerant comparisons, ray/axis-aligned-box
intersection, octant subdivision), the generic node traversal engine, the
tree orchestration layer and the ray tracer built on top of them.

The C++ source is templated over a floating type `T`; we embed the scalar
type as `ℚ` and the per-type machine epsilon `std::numeric_limits<T>::epsilon()`
as an explicit parameter `eps`.  `std::numeric_limits<T>::lowest()` is embedded
as the very negative constant `getMinQ`; only its sign and magnitude class
matter to the algorithms.  `epsF` is the concrete machine epsilon of `float`
(2^-23), the type the repository's tests instantiate.
-/

namespace October

/-- Vector in 3D space (`geometry::Vec3<T>`). -/
structure Vec3 where
  x : ℚ
  y : ℚ
  z : ℚ
deriving DecidableEq

/-- Ray in 3D space (`geometry::Ray<T>`): origin `pos` and direction `dir`. -/
structure Ray where
  pos : Vec3
  dir : Vec3
deriving DecidableEq

/-- Axis-aligned box (`geometry::Shape<T>` and `geometry::Box<T>`). -/
structure Shape where
  min : Vec3
  max : Vec3
deriving DecidableEq

/-- Embeds `std::numeric_limits<T>::lowest()` (`getMin<T>()`), the sentinel
"no intersection" value: a number more negative than any quantity the
algorithms compute. -/
def getMinQ : ℚ := -(2 ^ 1024)

/-- Machine epsilon of `float`, the scalar type used by the repository's
tests: `std::numeric_limits<float>::epsilon() = 2^-23`. -/
def epsF : ℚ := 1 / 2 ^ 23

/-- `geometry::isPositive` (both versions agree): `value > epsilon`. -/
def isPositive (eps value : ℚ) : Prop := eps < value

/-- `geometry::isNegative` (both versions agree): `value < -epsilon`. -/
def isNegative (eps value : ℚ) : Prop := value < -eps

/-- `geometry::isZero` from `include/geometry.h`: `|value| <= epsilon`. -/
def isZero (eps value : ℚ) : Prop := |value| ≤ eps

/-- `geometry::isZero` from the older geometry header (the one defining the
working `rayShapeIntersection`): `!isPositive(value) && !isNegative(value)`. -/
def isZeroP6 (eps value : ℚ) : Prop := ¬ isPositive eps value ∧ ¬ isNegative eps value

/-- `geometry::isMore` from `include/geometry.h`:
`a - b > max(eps, eps * max(|a|, |b|))`. -/
def isMore (eps a b : ℚ) : Prop := max eps (eps * max |a| |b|) < a - b

/-- `geometry::isLess` from `include/geometry.h`:
`a - b < -max(eps, eps * max(|a|, |b|))`. -/
def isLess (eps a b : ℚ) : Prop := a - b < -(max eps (eps * max |a| |b|))

/-- `geometry::isEqual` from `include/geometry.h`:
`|a - b| <= max(eps, eps * max(|a|, |b|))`. -/
def isEqual (eps a b : ℚ) : Prop := |a - b| ≤ max eps (eps * max |a| |b|)

instance (eps v : ℚ) : Decidable (isPositive eps v) :=
  inferInstanceAs (Decidable (eps < v))

instance (eps v : ℚ) : Decidable (isNegative eps v) :=
  inferInstanceAs (Decidable (v < -eps))

instance (eps v : ℚ) : Decidable (isZero eps v) :=
  inferInstanceAs (Decidable (|v| ≤ eps))

instance (eps v : ℚ) : Decidable (isZeroP6 eps v) :=
  inferInstanceAs (Decidable (¬ (eps < v) ∧ ¬ (v < -eps)))

instance (eps a b : ℚ) : Decidable (isMore eps a b) :=
  inferInstanceAs (Decidable (_ < _))

instance (eps a b : ℚ) : Decidable (isLess eps a b) :=
  inferInstanceAs (Decidable (_ < _))

instance (eps a b : ℚ) : Decidable (isEqual eps a b) :=
  inferInstanceAs (Decidable (_ ≤ _))

/-- The two `isZero` variants agree. -/
theorem isZero_iff_isZeroP6 (eps v : ℚ) : isZero eps v ↔ isZeroP6 eps v := by
  unfold isZero isZeroP6 isPositive isNegative
  rw [abs_le]
  constructor
  · rintro ⟨h1, h2⟩
    exact ⟨not_lt.mpr h2, not_lt.mpr h1⟩
  · rintro ⟨h1, h2⟩
    exact ⟨not_lt.mp h2, not_lt.mp h1⟩

/-- `geometry::inRange` from the older geometry header (plain comparisons). -/
def inRange (value low high : ℚ) : Prop := low ≤ value ∧ value ≤ high

instance (v l h : ℚ) : Decidable (inRange v l h) :=
  inferInstanceAs (Decidable (_ ∧ _))

/-- `geometry::inVolume` from the older geometry header. -/
def inVolume (point : Vec3) (volume : Shape) : Prop :=
  inRange point.x volume.min.x volume.max.x ∧
  inRange point.y volume.min.y volume.max.y ∧
  inRange point.z volume.min.z volume.max.z

instance (p : Vec3) (v : Shape) : Decidable (inVolume p v) :=
  inferInstanceAs (Decidable (_ ∧ _ ∧ _))

/-- `geometry::scaleVector`. -/
def scaleVector (vector : Vec3) (scalar : ℚ) : Vec3 :=
  ⟨vector.x * scalar, vector.y * scalar, vector.z * scalar⟩

/-- `geometry::addVectors`. -/
def addVectors (a b : Vec3) : Vec3 :=
  ⟨a.x + b.x, a.y + b.y, a.z + b.z⟩

/-- `geometry::rayFaceIntersection` (older geometry header): intersection of a
ray with the two opposite faces of an axis-aligned box along one axis.
`alpha` is the ray direction's component for the axis, `dist_a`/`dist_b` the
signed distances from the ray origin to the two faces.  The C++ writes the
candidate point into an output parameter only after the positivity check;
`point0` stands for the (indeterminate) incoming value of that parameter and
is returned unchanged whenever the C++ leaves the parameter unwritten. -/
def rayFaceIntersection (eps : ℚ) (ray : Ray) (shape : Shape)
    (alpha dist_a dist_b : ℚ) (point0 : Vec3) : ℚ × Vec3 :=
  if isZeroP6 eps alpha then (getMinQ, point0)
  else
    let dist := min (dist_a / alpha) (dist_b / alpha)
    if isPositive eps dist then
      let point := addVectors ray.pos (scaleVector ray.dir dist)
      if inVolume point shape then (dist, point) else (getMinQ, point)
    else (getMinQ, point0)

/-- Selection stage of `geometry::rayShapeIntersection`: starting from the
x-axis candidate, the y (then z) candidate overwrites the current best when
it is positive and either the current best is negative or the candidate is
strictly smaller. -/
def selectAxis (eps : ℚ) (ray : Ray) (fx fy fz : ℚ × Vec3) : ℚ × Ray :=
  let r1 : ℚ × Ray := (fx.1, ⟨fx.2, ⟨-ray.dir.x, ray.dir.y, ray.dir.z⟩⟩)
  let r2 : ℚ × Ray :=
    if isPositive eps fy.1 ∧ (isNegative eps r1.1 ∨ fy.1 < r1.1) then
      (fy.1, ⟨fy.2, ⟨ray.dir.x, -ray.dir.y, ray.dir.z⟩⟩)
    else r1
  let r3 : ℚ × Ray :=
    if isPositive eps fz.1 ∧ (isNegative eps r2.1 ∨ fz.1 < r2.1) then
      (fz.1, ⟨fz.2, ⟨ray.dir.x, ray.dir.y, -ray.dir.z⟩⟩)
    else r2
  r3

/-- `geometry::rayShapeIntersection` (older geometry header): returns the
intersection distance (or the `getMinQ` sentinel) together with the reflect
ray.  The three per-axis locals `point_x`, `point_y`, `point_z` are
default-initialized in C++ (indeterminate until written); we model the
unwritten value as the zero vector — no claim depends on it. -/
def rayShapeIntersection (eps : ℚ) (ray : Ray) (shape : Shape) : ℚ × Ray :=
  selectAxis eps ray
    (rayFaceIntersection eps ray shape ray.dir.x
      (shape.min.x - ray.pos.x) (shape.max.x - ray.pos.x) ⟨0, 0, 0⟩)
    (rayFaceIntersection eps ray shape ray.dir.y
      (shape.min.y - ray.pos.y) (shape.max.y - ray.pos.y) ⟨0, 0, 0⟩)
    (rayFaceIntersection eps ray shape ray.dir.z
      (shape.min.z - ray.pos.z) (shape.max.z - ray.pos.z) ⟨0, 0, 0⟩)

/-- `geometry::rayFacesIntersection` from `include/geometry.h` (the pair
variant): candidate distances to the two opposite faces in ascending order,
or a pair of sentinels when the ray is parallel to the faces. -/
def rayFacesIntersection (eps alpha a b : ℚ) : ℚ × ℚ :=
  if isPositive eps alpha then (a / alpha, b / alpha)
  else if isNegative eps alpha then (b / alpha, a / alpha)
  else (getMinQ, getMinQ)

/-- `Tracer::shapeHalf`: half of the box's extent along each axis. -/
def shapeHalf (shape : Shape) : Vec3 :=
  ⟨(shape.max.x - shape.min.x) / 2,
   (shape.max.y - shape.min.y) / 2,
   (shape.max.z - shape.min.z) / 2⟩

/-- Squared Euclidean length of the box's extent vector.
`Tracer::shapeDiag` is `sqrt` of this. -/
def diagSq (shape : Shape) : ℚ :=
  (shape.max.x - shape.min.x) ^ 2 + (shape.max.y - shape.min.y) ^ 2 +
    (shape.max.z - shape.min.z) ^ 2

/-- Exact encoding of the C++ comparison `power < shapeDiag(shape)`, i.e.
`power < sqrt (diagSq shape)` over the reals: since the square root is
nonnegative, it holds iff `power` is negative or `power ^ 2 < diagSq shape`. -/
def powerLtDiag (power : ℚ) (shape : Shape) : Prop :=
  power < 0 ∨ power ^ 2 < diagSq shape

instance (p : ℚ) (s : Shape) : Decidable (powerLtDiag p s) :=
  inferInstanceAs (Decidable (_ ∨ _))

/-- Sanity check of the encoding: `powerLtDiag power shape` coincides with
`power < Real.sqrt (diagSq shape)`. -/
theorem powerLtDiag_eq_sqrt (power : ℚ) (shape : Shape) :
    powerLtDiag power shape ↔ (power : ℝ) < Real.sqrt ((diagSq shape : ℚ) : ℝ) := by
  have hd : (0 : ℝ) ≤ ((diagSq shape : ℚ) : ℝ) := by
    have : (0 : ℚ) ≤ diagSq shape := by
      unfold diagSq
      positivity
    exact_mod_cast this
  constructor
  · rintro (h | h)
    · calc ((power : ℚ) : ℝ) < 0 := by exact_mod_cast h
        _ ≤ Real.sqrt _ := Real.sqrt_nonneg _

    · rcases lt_or_le power 0 with hp | hp
      · calc ((power : ℚ) : ℝ) < 0 := by exact_mod_cast hp
          _ ≤ Real.sqrt _ := Real.sqrt_nonneg _
      · have hp' : (0 : ℝ) ≤ (power : ℝ) := by exact_mod_cast hp
        have h' : ((power : ℝ)) ^ 2 < ((diagSq shape : ℚ) : ℝ) := by exact_mod_cast h
        nlinarith [Real.sq_sqrt hd, Real.sqrt_nonneg ((diagSq shape : ℚ) : ℝ),
          sq_nonneg ((power : ℝ) - Real.sqrt ((diagSq shape : ℚ) : ℝ))]
  · intro h
    rcases lt_or_le power 0 with hp | hp
    · exact Or.inl hp
    · right
      have hp' : (0 : ℝ) ≤ (power : ℝ) := by exact_mod_cast hp
      have : ((power : ℝ)) ^ 2 < ((diagSq shape : ℚ) : ℝ) := by
        nlinarith [Real.sq_sqrt hd, Real.sqrt_nonneg ((diagSq shape : ℚ) : ℝ)]
      exact_mod_cast this

/-- `Tracer::shapeChild`: octant subdivision.  Bits of the child index select
the half of each axis (`x = index % 2`, `y = index % 4 / 2`, `z = index % 8 / 4`);
the child keeps the parent's corner on one side and moves the opposite corner
by the half extent. -/
def shapeChild (child_index : ℕ) (shape : Shape) : Shape :=
  let x : ℕ := child_index % 2
  let y : ℕ := child_index % 4 / 2
  let z : ℕ := child_index % 8 / 4
  let half := shapeHalf shape
  ⟨⟨shape.min.x + (x : ℚ) * half.x, shape.min.y + (y : ℚ) * half.y,
    shape.min.z + (z : ℚ) * half.z⟩,
   ⟨shape.max.x - ((x ^^^ 1 : ℕ) : ℚ) * half.x,
    shape.max.y - ((y ^^^ 1 : ℕ) : ℚ) * half.y,
    shape.max.z - ((z ^^^ 1 : ℕ) : ℚ) * half.z⟩⟩

/-- Helper for the epsilon-predicate analysis: for operand magnitudes at least
one, the mixed tolerance `max(eps, eps * max(|a|,|b|))` scales linearly with a
scaling factor `c ≥ 1` applied to both operands. -/
theorem relTol_scale (eps a b c : ℚ) (he : 0 ≤ eps) (hm : 1 ≤ max |a| |b|)
    (hc : 1 ≤ c) :
    max eps (eps * max |c * a| |c * b|) = c * max eps (eps * max |a| |b|) := by
  have hc0 : (0 : ℚ) < c := lt_of_lt_of_le one_pos hc
  have habs : |c| = c := abs_of_pos hc0
  have hM : max |c * a| |c * b| = c * max |a| |b| := by
    rw [abs_mul, abs_mul, habs]
    exact (mul_max_of_nonneg _ _ hc0.le).symm
  have hcm : 1 ≤ c * max |a| |b| := by nlinarith
  have ht : max eps (eps * max |a| |b|) = eps * max |a| |b| :=
    max_eq_right (by have := mul_le_mul_of_nonneg_left hm he; linarith)
  have ht2 : max eps (eps * (c * max |a| |b|)) = eps * (c * max |a| |b|) :=
    max_eq_right (by have := mul_le_mul_of_nonneg_left hcm he; linarith)
  rw [hM, ht, ht2]
  ring

/-- C4 (counterexample): the claim that all six epsilon predicates compare
against a magnitude-scaled (relative) tolerance — hence classify stably
across the dynamic range — fails for `isZero`: it uses the fixed absolute
machine epsilon, so it is not invariant under scaling the operand by 2. -/
theorem c4_counterexample_isZero_not_relative :
    ¬ (isZero epsF epsF ↔ isZero epsF (2 * epsF)) := by
  norm_num [isZero, epsF, abs_le]

/-- C4 (amended): `isMore`, `isLess` and `isEqual` compare against
`max(eps, eps * max(|a|,|b|))` — a tolerance that is relative (and hence
scale-invariant) only once the larger operand magnitude is at least 1 —
while `isZero`, `isPositive` and `isNegative` compare against the fixed
absolute machine epsilon and are not scale-stable. -/
theorem c4_epsilon_predicates_mixed_tolerance :
    (∀ eps a b c : ℚ, 0 ≤ eps → 1 ≤ max |a| |b| → 1 ≤ c →
      (isMore eps a b ↔ isMore eps (c * a) (c * b))) ∧
    (∀ eps a b c : ℚ, 0 ≤ eps → 1 ≤ max |a| |b| → 1 ≤ c →
      (isLess eps a b ↔ isLess eps (c * a) (c * b))) ∧
    (∀ eps a b c : ℚ, 0 ≤ eps → 1 ≤ max |a| |b| → 1 ≤ c →
      (isEqual eps a b ↔ isEqual eps (c * a) (c * b))) ∧
    ¬ (isPositive epsF 1 ↔ isPositive epsF ((1 / 2 ^ 24) * 1)) ∧
    ¬ (isNegative epsF (-1) ↔ isNegative epsF ((1 / 2 ^ 24) * (-1))) := by
  refine ⟨?_, ?_, ?_, ?_, ?_⟩
  · intro eps a b c he hm hc
    have hc0 : (0 : ℚ) < c := lt_of_lt_of_le one_pos hc
    unfold isMore
    rw [relTol_scale eps a b c he hm hc,
      show c * a - c * b = c * (a - b) from by ring]
    constructor
    · exact fun h => mul_lt_mul_of_pos_left h hc0
    · exact fun h => lt_of_mul_lt_mul_left h hc0.le
  · intro eps a b c he hm hc
    have hc0 : (0 : ℚ) < c := lt_of_lt_of_le one_pos hc
    unfold isLess
    rw [relTol_scale eps a b c he hm hc,
      show c * a - c * b = c * (a - b) from by ring,
      show -(c * max eps (eps * max |a| |b|)) =
        c * (-(max eps (eps * max |a| |b|))) from by ring]
    constructor
    · exact fun h => mul_lt_mul_of_pos_left h hc0
    · exact fun h => lt_of_mul_lt_mul_left h hc0.le
  · intro eps a b c he hm hc
    have hc0 : (0 : ℚ) < c := lt_of_lt_of_le one_pos hc
    unfold isEqual
    rw [relTol_scale eps a b c he hm hc,
      show c * a - c * b = c * (a - b) from by ring, abs_mul, abs_of_pos hc0]
    constructor
    · exact fun h => mul_le_mul_of_nonneg_left h hc0.le
    · exact fun h => le_of_mul_le_mul_left h hc0
  · norm_num [isPositive, epsF]
  · norm_num [isNegative, epsF]

/-- C4 (witness): the amended theorem applied at concrete inputs. -/
theorem c4_witness :
    (isMore epsF 3 1 ↔ isMore epsF (2 * 3) (2 * 1)) ∧
    (isLess epsF 1 3 ↔ isLess epsF (2 * 1) (2 * 3)) ∧
    (isEqual epsF 3 3 ↔ isEqual epsF (2 * 3) (2 * 3)) :=
  ⟨c4_epsilon_predicates_mixed_tolerance.1 epsF 3 1 2 (by norm_num [epsF])
      (by norm_num) (by norm_num),
   c4_epsilon_predicates_mixed_tolerance.2.1 epsF 1 3 2 (by norm_num [epsF])
      (by norm_num) (by norm_num),
   c4_epsilon_predicates_mixed_tolerance.2.2.1 epsF 3 3 2 (by norm_num [epsF])
      (by norm_num) (by norm_num)⟩

/-- Octant of a box as the specification words it: bit 0 of the child index
selects the x half, bit 1 the y half, bit 2 the z half, each axis being split
at the parent's midpoint. -/
def specOctant (shape : Shape) (i : ℕ) : Shape :=
  let mid : Vec3 := ⟨(shape.min.x + shape.max.x) / 2, (shape.min.y + shape.max.y) / 2,
    (shape.min.z + shape.max.z) / 2⟩
  ⟨⟨if i.testBit 0 then mid.x else shape.min.x,
    if i.testBit 1 then mid.y else shape.min.y,
    if i.testBit 2 then mid.z else shape.min.z⟩,
   ⟨if i.testBit 0 then shape.max.x else mid.x,
    if i.testBit 1 then shape.max.y else mid.y,
    if i.testBit 2 then shape.max.z else mid.z⟩⟩

/-- C7: for every box and child index below 8, `shapeChild` decodes the three
low bits of the index (x = bit 0, y = bit 1, z = bit 2) and returns the
half-sized sub-box on the selected side of each axis, split at the parent
midpoint; the 8 children of the unit cube are exactly the 8 unit half-cubes,
and along each axis the lower and upper siblings meet at the parent midpoint
with no gap or overlap. -/
theorem c7_shapeChild_octant_decode :
    (∀ (shape : Shape) (i : ℕ), i < 8 → shapeChild i shape = specOctant shape i) ∧
    (List.range 8).map (fun i => shapeChild i ⟨⟨0, 0, 0⟩, ⟨1, 1, 1⟩⟩) =
      [⟨⟨0, 0, 0⟩, ⟨1/2, 1/2, 1/2⟩⟩, ⟨⟨1/2, 0, 0⟩, ⟨1, 1/2, 1/2⟩⟩,
       ⟨⟨0, 1/2, 0⟩, ⟨1/2, 1, 1/2⟩⟩, ⟨⟨1/2, 1/2, 0⟩, ⟨1, 1, 1/2⟩⟩,
       ⟨⟨0, 0, 1/2⟩, ⟨1/2, 1/2, 1⟩⟩, ⟨⟨1/2, 0, 1/2⟩, ⟨1, 1/2, 1⟩⟩,
       ⟨⟨0, 1/2, 1/2⟩, ⟨1/2, 1, 1⟩⟩, ⟨⟨1/2, 1/2, 1/2⟩, ⟨1, 1, 1⟩⟩] ∧
    (∀ (shape : Shape) (i : ℕ), i < 8 →
      (i.testBit 0 = false →
        (shapeChild i shape).max.x = (shapeChild (i ^^^ 1) shape).min.x ∧
        (shapeChild i shape).max.x = (shape.min.x + shape.max.x) / 2) ∧
      (i.testBit 1 = false →
        (shapeChild i shape).max.y = (shapeChild (i ^^^ 2) shape).min.y ∧
        (shapeChild i shape).max.y = (shape.min.y + shape.max.y) / 2) ∧
      (i.testBit 2 = false →
        (shapeChild i shape).max.z = (shapeChild (i ^^^ 4) shape).min.z ∧
        (shapeChild i shape).max.z = (shape.min.z + shape.max.z) / 2)) := by
  refine ⟨?_, ?_, ?_⟩
  · intro shape i h
    interval_cases i <;>
      · simp [shapeChild, specOctant, shapeHalf, Shape.mk.injEq, Vec3.mk.injEq, Nat.testBit]
        repeat' apply And.intro
        all_goals ring
  · norm_num [shapeChild, shapeHalf, List.range_succ]
  · intro shape i h
    interval_cases i <;>
      · simp [shapeChild, shapeHalf, Nat.testBit]
        repeat' apply And.intro
        all_goals ring

/-- C7 (witness): the decode statement applied at the unit cube, child 5. -/
theorem c7_witness :
    shapeChild 5 ⟨⟨0, 0, 0⟩, ⟨1, 1, 1⟩⟩ = specOctant ⟨⟨0, 0, 0⟩, ⟨1, 1, 1⟩⟩ 5 :=
  c7_shapeChild_octant_decode.1 ⟨⟨0, 0, 0⟩, ⟨1, 1, 1⟩⟩ 5 (by norm_num)

/-- C8: when the ray direction component `alpha` for an axis is numerically
zero, `rayFaceIntersection` returns the minimal sentinel (leaving the output
point untouched) and `rayFacesIntersection` returns the sentinel for both
face candidates; in both functions the `alpha`-guard runs before any division
by `alpha`, so a zero component never reaches the division. -/
theorem c8_zero_alpha_sentinel (eps alpha dist_a dist_b : ℚ) (ray : Ray)
    (shape : Shape) (point0 : Vec3) (h : isZero eps alpha) :
    rayFaceIntersection eps ray shape alpha dist_a dist_b point0 = (getMinQ, point0) ∧
    rayFacesIntersection eps alpha dist_a dist_b = (getMinQ, getMinQ) := by
  have h6 : isZeroP6 eps alpha := (isZero_iff_isZeroP6 eps alpha).mp h
  constructor
  · unfold rayFaceIntersection
    rw [if_pos h6]
  · unfold rayFacesIntersection
    rw [if_neg h6.1, if_neg h6.2]

/-- C8 (witness): the sentinel behavior at `alpha = 0` with the float machine
epsilon. -/
theorem c8_witness :
    rayFaceIntersection epsF ⟨⟨0, 0, 0⟩, ⟨0, 0, 1⟩⟩ ⟨⟨0, 0, 0⟩, ⟨1, 1, 1⟩⟩ 0 3 4 ⟨5, 6, 7⟩ =
      (getMinQ, ⟨5, 6, 7⟩) ∧
    rayFacesIntersection epsF 0 3 4 = (getMinQ, getMinQ) :=
  c8_zero_alpha_sentinel epsF 0 3 4 ⟨⟨0, 0, 0⟩, ⟨0, 0, 1⟩⟩ ⟨⟨0, 0, 0⟩, ⟨1, 1, 1⟩⟩
    ⟨5, 6, 7⟩ (by norm_num [isZero, epsF])

/-- Direction component of the ray for each of the three axes. -/
def axisDir (ray : Ray) : Fin 3 → ℚ
  | 0 => ray.dir.x
  | 1 => ray.dir.y
  | 2 => ray.dir.z

/-- Per-axis entry distance as the specification words it: the smaller of the
two candidate distances to the pair of faces orthogonal to the axis. -/
def specAxisEntry (ray : Ray) (shape : Shape) : Fin 3 → ℚ
  | 0 => min ((shape.min.x - ray.pos.x) / ray.dir.x) ((shape.max.x - ray.pos.x) / ray.dir.x)
  | 1 => min ((shape.min.y - ray.pos.y) / ray.dir.y) ((shape.max.y - ray.pos.y) / ray.dir.y)
  | 2 => min ((shape.min.z - ray.pos.z) / ray.dir.z) ((shape.max.z - ray.pos.z) / ray.dir.z)

/-- Candidate intersection point of an axis. -/
def specAxisPoint (ray : Ray) (shape : Shape) (a : Fin 3) : Vec3 :=
  addVectors ray.pos (scaleVector ray.dir (specAxisEntry ray shape a))

/-- Validity of an axis as the specification words it: the ray is not parallel
to the axis' faces, the entry distance is positive, and the candidate point
lies within the box's bounds. -/
def specAxisValid (eps : ℚ) (ray : Ray) (shape : Shape) (a : Fin 3) : Prop :=
  ¬ isZeroP6 eps (axisDir ray a) ∧ isPositive eps (specAxisEntry ray shape a) ∧
    inVolume (specAxisPoint ray shape a) shape

/-- Incoming direction with the hit-axis component negated (mirror
reflection off an axis-aligned face). -/
def specReflectDir (ray : Ray) : Fin 3 → Vec3
  | 0 => ⟨-ray.dir.x, ray.dir.y, ray.dir.z⟩
  | 1 => ⟨ray.dir.x, -ray.dir.y, ray.dir.z⟩
  | 2 => ⟨ray.dir.x, ray.dir.y, -ray.dir.z⟩

/-- The per-axis face-intersection output as `rayShapeIntersection` computes
it, indexed by axis. -/
def faceOut (eps : ℚ) (ray : Ray) (shape : Shape) : Fin 3 → ℚ × Vec3
  | 0 => rayFaceIntersection eps ray shape ray.dir.x
      (shape.min.x - ray.pos.x) (shape.max.x - ray.pos.x) ⟨0, 0, 0⟩
  | 1 => rayFaceIntersection eps ray shape ray.dir.y
      (shape.min.y - ray.pos.y) (shape.max.y - ray.pos.y) ⟨0, 0, 0⟩
  | 2 => rayFaceIntersection eps ray shape ray.dir.z
      (shape.min.z - ray.pos.z) (shape.max.z - ray.pos.z) ⟨0, 0, 0⟩

theorem rayShape_eq_selectAxis (eps : ℚ) (ray : Ray) (shape : Shape) :
    rayShapeIntersection eps ray shape =
      selectAxis eps ray (faceOut eps ray shape 0) (faceOut eps ray shape 1)
        (faceOut eps ray shape 2) := rfl

theorem not_isPositive_getMinQ (eps : ℚ) (h0 : 0 ≤ eps) : ¬ isPositive eps getMinQ := by
  unfold isPositive getMinQ
  intro h
  norm_num at h
  linarith

theorem isNegative_getMinQ (eps : ℚ) (h1 : eps < 2 ^ 1024) : isNegative eps getMinQ := by
  unfold isNegative getMinQ
  linarith

/-- Dichotomy of one axis of `rayShapeIntersection`: the per-axis face
intersection either reports a valid axis together with its entry distance and
point, or reports the sentinel (which is never positive). -/
theorem face_dichotomy (eps : ℚ) (ray : Ray) (shape : Shape) (h0 : 0 ≤ eps)
    (a : Fin 3) :
    (specAxisValid eps ray shape a ∧
      faceOut eps ray shape a = (specAxisEntry ray shape a, specAxisPoint ray shape a) ∧
      isPositive eps (specAxisEntry ray shape a)) ∨
    (¬ specAxisValid eps ray shape a ∧ (faceOut eps ray shape a).1 = getMinQ ∧
      ¬ isPositive eps (faceOut eps ray shape a).1) := by
  have hgm : ¬ isPositive eps getMinQ := not_isPositive_getMinQ eps h0
  fin_cases a <;>
  · simp only [faceOut, specAxisValid, specAxisEntry, specAxisPoint, axisDir,
      rayFaceIntersection]
    split_ifs with hzero hpos hvol
    · right
      refine ⟨fun hv => hv.1 hzero, rfl, hgm⟩
    · left
      exact ⟨⟨hzero, hpos, hvol⟩, rfl, hpos⟩
    · right
      exact ⟨fun hv => hvol hv.2.2, rfl, hgm⟩
    · right
      exact ⟨fun hv => hpos hv.2.1, rfl, hgm⟩

theorem pos_not_neg (eps d : ℚ) (h0 : 0 ≤ eps) (h : isPositive eps d) :
    ¬ isNegative eps d := by
  unfold isPositive at h
  unfold isNegative
  intro h2
  linarith

/-- C1: `rayShapeIntersection` returns the smallest positive per-axis entry
distance whose intersection point lies within the box's bounds, and fills the
reflect ray with that intersection point and the incoming direction with the
hit-axis component negated; when no axis is valid it returns the negative
sentinel.  In particular, for the unit box and the ray from (0,0,-1) along +z
it returns distance 1 with reflect ray ((0,0,0),(0,0,-1)), and the ray
starting at (0,0,0) along +z reports no positive intersection. -/
theorem c1_rayShapeIntersection_smallest_positive (eps : ℚ) (ray : Ray)
    (shape : Shape) (h0 : 0 ≤ eps) (h1 : eps < 2 ^ 1024) :
    ((∃ a : Fin 3, specAxisValid eps ray shape a) →
      ∃ a : Fin 3, specAxisValid eps ray shape a ∧
        (rayShapeIntersection eps ray shape).1 = specAxisEntry ray shape a ∧
        (∀ b : Fin 3, specAxisValid eps ray shape b →
          specAxisEntry ray shape a ≤ specAxisEntry ray shape b) ∧
        (rayShapeIntersection eps ray shape).2 =
          ⟨specAxisPoint ray shape a, specReflectDir ray a⟩) ∧
    ((¬ ∃ a : Fin 3, specAxisValid eps ray shape a) →
      (rayShapeIntersection eps ray shape).1 = getMinQ ∧
      (rayShapeIntersection eps ray shape).1 < 0) ∧
    rayShapeIntersection epsF ⟨⟨0, 0, -1⟩, ⟨0, 0, 1⟩⟩ ⟨⟨0, 0, 0⟩, ⟨1, 1, 1⟩⟩ =
      (1, ⟨⟨0, 0, 0⟩, ⟨0, 0, -1⟩⟩) ∧
    ¬ isPositive epsF
      (rayShapeIntersection epsF ⟨⟨0, 0, 0⟩, ⟨0, 0, 1⟩⟩ ⟨⟨0, 0, 0⟩, ⟨1, 1, 1⟩⟩).1 := by
  have hgmneg : isNegative eps getMinQ := isNegative_getMinQ eps h1
  refine ⟨?_, ?_, ?_, ?_⟩
  · rintro ⟨w, hw⟩
    rcases face_dichotomy eps ray shape h0 0 with ⟨hvx, hfx, hpx⟩ | ⟨hnx, hfx, hnpx⟩ <;>
      rcases face_dichotomy eps ray shape h0 1 with ⟨hvy, hfy, hpy⟩ | ⟨hny, hfy, hnpy⟩ <;>
      rcases face_dichotomy eps ray shape h0 2 with ⟨hvz, hfz, hpz⟩ | ⟨hnz, hfz, hnpz⟩
    -- valid, valid, valid
    · rw [rayShape_eq_selectAxis, hfx, hfy, hfz]
      simp only [selectAxis]
      split_ifs with h2 h3 h3 <;> dsimp only at h2 h3 ⊢
      · have hyx : specAxisEntry ray shape 1 < specAxisEntry ray shape 0 :=
          h2.2.resolve_left (pos_not_neg eps _ h0 hpx)
        have hzy : specAxisEntry ray shape 2 < specAxisEntry ray shape 1 :=
          h3.2.resolve_left (pos_not_neg eps _ h0 hpy)
        refine ⟨2, hvz, rfl, ?_, rfl⟩
        intro b hb
        fin_cases b
        · show specAxisEntry ray shape 2 ≤ specAxisEntry ray shape 0
          linarith
        · show specAxisEntry ray shape 2 ≤ specAxisEntry ray shape 1
          linarith
        · show specAxisEntry ray shape 2 ≤ specAxisEntry ray shape 2
          linarith
      · have hyx : specAxisEntry ray shape 1 < specAxisEntry ray shape 0 :=
          h2.2.resolve_left (pos_not_neg eps _ h0 hpx)
        have hzy : specAxisEntry ray shape 1 ≤ specAxisEntry ray shape 2 := by
          rcases not_and_or.mp h3 with h | h
          · exact absurd hpz h
          · rcases not_or.mp h with ⟨hn1, hn2⟩
            exact le_of_not_lt hn2
        refine ⟨1, hvy, rfl, ?_, rfl⟩
        intro b hb
        fin_cases b
        · show specAxisEntry ray shape 1 ≤ specAxisEntry ray shape 0
          linarith
        · show specAxisEntry ray shape 1 ≤ specAxisEntry ray shape 1
          linarith
        · show specAxisEntry ray shape 1 ≤ specAxisEntry ray shape 2
          linarith
      · have hxy : specAxisEntry ray shape 0 ≤ specAxisEntry ray shape 1 := by
          rcases not_and_or.mp h2 with h | h
          · exact absurd hpy h
          · rcases not_or.mp h with ⟨hn1, hn2⟩
            exact le_of_not_lt hn2
        have hzx : specAxisEntry ray shape 2 < specAxisEntry ray shape 0 :=
          h3.2.resolve_left (pos_not_neg eps _ h0 hpx)
        refine ⟨2, hvz, rfl, ?_, rfl⟩
        intro b hb
        fin_cases b
        · show specAxisEntry ray shape 2 ≤ specAxisEntry ray shape 0
          linarith
        · show specAxisEntry ray shape 2 ≤ specAxisEntry ray shape 1
          linarith
        · show specAxisEntry ray shape 2 ≤ specAxisEntry ray shape 2
          linarith
      · have hxy : specAxisEntry ray shape 0 ≤ specAxisEntry ray shape 1 := by
          rcases not_and_or.mp h2 with h | h
          · exact absurd hpy h
          · rcases not_or.mp h with ⟨hn1, hn2⟩
            exact le_of_not_lt hn2
        have hxz : specAxisEntry ray shape 0 ≤ specAxisEntry ray shape 2 := by
          rcases not_and_or.mp h3 with h | h
          · exact absurd hpz h
          · rcases not_or.mp h with ⟨hn1, hn2⟩
            exact le_of_not_lt hn2
        refine ⟨0, hvx, rfl, ?_, rfl⟩
        intro b hb
        fin_cases b
        · show specAxisEntry ray shape 0 ≤ specAxisEntry ray shape 0
          linarith
        · show specAxisEntry ray shape 0 ≤ specAxisEntry ray shape 1
          linarith
        · show specAxisEntry ray shape 0 ≤ specAxisEntry ray shape 2
          linarith
    -- valid, valid, invalid
    · rw [rayShape_eq_selectAxis, hfx, hfy]
      simp only [selectAxis]
      split_ifs with h2 h3 h3 <;> dsimp only at h2 h3 ⊢
      · exact absurd h3.1 hnpz
      · have hyx : specAxisEntry ray shape 1 < specAxisEntry ray shape 0 :=
          h2.2.resolve_left (pos_not_neg eps _ h0 hpx)
        refine ⟨1, hvy, rfl, ?_, rfl⟩
        intro b hb
        fin_cases b
        · show specAxisEntry ray shape 1 ≤ specAxisEntry ray shape 0
          linarith
        · show specAxisEntry ray shape 1 ≤ specAxisEntry ray shape 1
          linarith
        · exact absurd hb hnz
      · exact absurd h3.1 hnpz
      · have hxy : specAxisEntry ray shape 0 ≤ specAxisEntry ray shape 1 := by
          rcases not_and_or.mp h2 with h | h
          · exact absurd hpy h
          · rcases not_or.mp h with ⟨hn1, hn2⟩
            exact le_of_not_lt hn2
        refine ⟨0, hvx, rfl, ?_, rfl⟩
        intro b hb
        fin_cases b
        · show specAxisEntry ray shape 0 ≤ specAxisEntry ray shape 0
          linarith
        · show specAxisEntry ray shape 0 ≤ specAxisEntry ray shape 1
          linarith
        · exact absurd hb hnz
    -- valid, invalid, valid
    · rw [rayShape_eq_selectAxis, hfx, hfz]
      simp only [selectAxis]
      split_ifs with h2 h3 h3 <;> dsimp only at h2 h3 ⊢
      · exact absurd h2.1 hnpy
      · exact absurd h2.1 hnpy
      · have hzx : specAxisEntry ray shape 2 < specAxisEntry ray shape 0 :=
          h3.2.resolve_left (pos_not_neg eps _ h0 hpx)
        refine ⟨2, hvz, rfl, ?_, rfl⟩
        intro b hb
        fin_cases b
        · show specAxisEntry ray shape 2 ≤ specAxisEntry ray shape 0
          linarith
        · exact absurd hb hny
        · show specAxisEntry ray shape 2 ≤ specAxisEntry ray shape 2
          linarith
      · have hxz : specAxisEntry ray shape 0 ≤ specAxisEntry ray shape 2 := by
          rcases not_and_or.mp h3 with h | h
          · exact absurd hpz h
          · rcases not_or.mp h with ⟨hn1, hn2⟩
            exact le_of_not_lt hn2
        refine ⟨0, hvx, rfl, ?_, rfl⟩
        intro b hb
        fin_cases b
        · show specAxisEntry ray shape 0 ≤ specAxisEntry ray shape 0
          linarith
        · exact absurd hb hny
        · show specAxisEntry ray shape 0 ≤ specAxisEntry ray shape 2
          linarith
    -- valid, invalid, invalid
    · rw [rayShape_eq_selectAxis, hfx]
      simp only [selectAxis]
      split_ifs with h2 h3 h3 <;> dsimp only at h2 h3 ⊢
      · exact absurd h2.1 hnpy
      · exact absurd h2.1 hnpy
      · exact absurd h3.1 hnpz
      · refine ⟨0, hvx, rfl, ?_, rfl⟩
        intro b hb
        fin_cases b
        · exact le_refl _
        · exact absurd hb hny
        · exact absurd hb hnz
    -- invalid, valid, valid
    · rw [rayShape_eq_selectAxis, hfy, hfz]
      have hneg : isNegative eps (faceOut eps ray shape 0).1 := by
        rw [hfx]
        exact hgmneg
      simp only [selectAxis]
      split_ifs with h2 h3 h3 <;> dsimp only at h2 h3 ⊢
      · have hzy : specAxisEntry ray shape 2 < specAxisEntry ray shape 1 :=
          h3.2.resolve_left (pos_not_neg eps _ h0 hpy)
        refine ⟨2, hvz, rfl, ?_, rfl⟩
        intro b hb
        fin_cases b
        · exact absurd hb hnx
        · show specAxisEntry ray shape 2 ≤ specAxisEntry ray shape 1
          linarith
        · show specAxisEntry ray shape 2 ≤ specAxisEntry ray shape 2
          linarith
      · have hyz : specAxisEntry ray shape 1 ≤ specAxisEntry ray shape 2 := by
          rcases not_and_or.mp h3 with h | h
          · exact absurd hpz h
          · rcases not_or.mp h with ⟨hn1, hn2⟩
            exact le_of_not_lt hn2
        refine ⟨1, hvy, rfl, ?_, rfl⟩
        intro b hb
        fin_cases b
        · exact absurd hb hnx
        · show specAxisEntry ray shape 1 ≤ specAxisEntry ray shape 1
          linarith
        · show specAxisEntry ray shape 1 ≤ specAxisEntry ray shape 2
          linarith
      · exact absurd ⟨hpy, Or.inl hneg⟩ h2
      · exact absurd ⟨hpy, Or.inl hneg⟩ h2
    -- invalid, valid, invalid
    · rw [rayShape_eq_selectAxis, hfy]
      have hneg : isNegative eps (faceOut eps ray shape 0).1 := by
        rw [hfx]
        exact hgmneg
      simp only [selectAxis]
      split_ifs with h2 h3 h3 <;> dsimp only at h2 h3 ⊢
      · exact absurd h3.1 hnpz
      · refine ⟨1, hvy, rfl, ?_, rfl⟩
        intro b hb
        fin_cases b
        · exact absurd hb hnx
        · exact le_refl _
        · exact absurd hb hnz
      · exact absurd ⟨hpy, Or.inl hneg⟩ h2
      · exact absurd ⟨hpy, Or.inl hneg⟩ h2
    -- invalid, invalid, valid
    · rw [rayShape_eq_selectAxis, hfz]
      have hneg : isNegative eps (faceOut eps ray shape 0).1 := by
        rw [hfx]
        exact hgmneg
      simp only [selectAxis]
      split_ifs with h2 h3 h3 <;> dsimp only at h2 h3 ⊢
      · exact absurd h2.1 hnpy
      · exact absurd h2.1 hnpy
      · refine ⟨2, hvz, rfl, ?_, rfl⟩
        intro b hb
        fin_cases b
        · exact absurd hb hnx
        · exact absurd hb hny
        · exact le_refl _
      · exact absurd ⟨hpz, Or.inl hneg⟩ h3
    -- invalid, invalid, invalid
    · fin_cases w
      · exact absurd hw hnx
      · exact absurd hw hny
      · exact absurd hw hnz
  · intro hno
    push_neg at hno
    rcases face_dichotomy eps ray shape h0 0 with ⟨hvx, _, _⟩ | ⟨_, hfx, hnpx⟩
    · exact absurd hvx (hno 0)
    rcases face_dichotomy eps ray shape h0 1 with ⟨hvy, _, _⟩ | ⟨_, _, hnpy⟩
    · exact absurd hvy (hno 1)
    rcases face_dichotomy eps ray shape h0 2 with ⟨hvz, _, _⟩ | ⟨_, _, hnpz⟩
    · exact absurd hvz (hno 2)
    rw [rayShape_eq_selectAxis]
    simp only [selectAxis]
    split_ifs with h2 h3 h3 <;> dsimp only at h2 h3 ⊢
    · exact absurd h2.1 hnpy
    · exact absurd h2.1 hnpy
    · exact absurd h3.1 hnpz
    · constructor
      · exact hfx
      · rw [hfx]
        norm_num [getMinQ]
  · norm_num [rayShapeIntersection, selectAxis, rayFaceIntersection, isZeroP6,
      isPositive, isNegative, inVolume, inRange, addVectors, scaleVector, epsF,
      getMinQ, min_def]
  · norm_num [rayShapeIntersection, selectAxis, rayFaceIntersection, isZeroP6,
      isPositive, isNegative, inVolume, inRange, addVectors, scaleVector, epsF,
      getMinQ, min_def]

/-- C1 (witness): the general statement applied to the unit box and the ray
from (0,0,-1) along +z, with the z axis as the valid axis. -/
theorem c1_witness :
    ∃ a : Fin 3, specAxisValid epsF ⟨⟨0, 0, -1⟩, ⟨0, 0, 1⟩⟩ ⟨⟨0, 0, 0⟩, ⟨1, 1, 1⟩⟩ a ∧
      (rayShapeIntersection epsF ⟨⟨0, 0, -1⟩, ⟨0, 0, 1⟩⟩ ⟨⟨0, 0, 0⟩, ⟨1, 1, 1⟩⟩).1 =
        specAxisEntry ⟨⟨0, 0, -1⟩, ⟨0, 0, 1⟩⟩ ⟨⟨0, 0, 0⟩, ⟨1, 1, 1⟩⟩ a ∧
      (∀ b : Fin 3, specAxisValid epsF ⟨⟨0, 0, -1⟩, ⟨0, 0, 1⟩⟩ ⟨⟨0, 0, 0⟩, ⟨1, 1, 1⟩⟩ b →
        specAxisEntry ⟨⟨0, 0, -1⟩, ⟨0, 0, 1⟩⟩ ⟨⟨0, 0, 0⟩, ⟨1, 1, 1⟩⟩ a ≤
          specAxisEntry ⟨⟨0, 0, -1⟩, ⟨0, 0, 1⟩⟩ ⟨⟨0, 0, 0⟩, ⟨1, 1, 1⟩⟩ b) ∧
      (rayShapeIntersection epsF ⟨⟨0, 0, -1⟩, ⟨0, 0, 1⟩⟩ ⟨⟨0, 0, 0⟩, ⟨1, 1, 1⟩⟩).2 =
        ⟨specAxisPoint ⟨⟨0, 0, -1⟩, ⟨0, 0, 1⟩⟩ ⟨⟨0, 0, 0⟩, ⟨1, 1, 1⟩⟩ a,
         specReflectDir ⟨⟨0, 0, -1⟩, ⟨0, 0, 1⟩⟩ a⟩ :=
  (c1_rayShapeIntersection_smallest_positive epsF ⟨⟨0, 0, -1⟩, ⟨0, 0, 1⟩⟩
      ⟨⟨0, 0, 0⟩, ⟨1, 1, 1⟩⟩ (by norm_num [epsF]) (by norm_num [epsF])).1
    ⟨2, by
      norm_num [specAxisValid, axisDir, specAxisEntry, specAxisPoint, inVolume,
        inRange, addVectors, scaleVector, isZeroP6, isPositive, isNegative,
        epsF, min_def]⟩

/-- `node::Node<Payload, ChildsContainer>`: a payload plus a fixed-size
container of optionally-present, exclusively-owned child nodes
(`std::array<std::unique_ptr<Node>, N>` becomes a list of `Option`s; the
list length plays the role of `N`). -/
inductive NodeT (P : Type) : Type where
  | mk : P → List (Option (NodeT P)) → NodeT P

/-- Payload stored in a node (`Node::payload_`). -/
def NodeT.payload {P : Type} : NodeT P → P
  | .mk p _ => p

/-- Child container of a node (`Node::childs_`). -/
def NodeT.childs {P : Type} : NodeT P → List (Option (NodeT P))
  | .mk _ cs => cs

/-- Occupancy of a child slot: whether index `j` holds a present child. -/
def occ {P : Type} (l : List (Option (NodeT P))) (j : ℕ) : Bool :=
  (l.getD j none).isSome

/-- Body of the `std::for_each` lambda shared by `Node::processPayload` and
`Node::processChilds`: given the recursive call `recur` for child nodes, one
step processes one index from the predicate's target list — if it is in range
and the slot is occupied, recurse into that child with interpolated arguments
(threading the external state `σ`, storing the updated child back in its
slot, and appending the recursion's visit log); otherwise do nothing.
The accumulator is (state, child container, visit log). -/
def childStep {P σ A : Type}
    (recur : List ℕ → NodeT P → σ → A → σ × NodeT P × List (List ℕ × A))
    (interp : ℕ → A → A) (path : List ℕ) (a : A)
    (acc : σ × List (Option (NodeT P)) × List (List ℕ × A)) (i : ℕ) :
    σ × List (Option (NodeT P)) × List (List ℕ × A) :=
  if h : i < acc.2.1.length then
    match acc.2.1.get ⟨i, h⟩ with
    | some c =>
      let rc := recur (path ++ [i]) c acc.1 (interp i a)
      (rc.1, acc.2.1.set i (some rc.2.1), acc.2.2 ++ rc.2.2)
    | none => acc
  else acc

/-- `Node::processPayload`: DFS pre-order traversal.  `process_func` receives
the payload (plus external state `σ`, modelling the C++ closures' captured
mutable state) and returns the updated state, the updated payload and the
target child indices; each in-range occupied target index is recursed into
with `interpolate_func`-transformed arguments.  The C++ recursion is
unbounded, so the embedding takes an explicit `fuel` depth budget (theorems
quantify over sufficient fuel); `path` is the node's position, used only for
the returned visit log, which records (position, arguments) of every visit
in DFS pre-order. -/
def processPayload {P σ A : Type} (f : σ → P → A → σ × P × List ℕ)
    (interp : ℕ → A → A) :
    ℕ → List ℕ → NodeT P → σ → A → σ × NodeT P × List (List ℕ × A)
  | 0, _, n, s, _ => (s, n, [])
  | fuel + 1, path, NodeT.mk p cs, s, a =>
    let r := f s p a
    let fin := r.2.2.foldl (childStep (processPayload f interp fuel) interp path a)
      (r.1, cs, [])
    (fin.1, NodeT.mk r.2.1 fin.2.1, (path, a) :: fin.2.2)

/-- `Node::processChilds`: identical traversal except that `process_func`
receives (and may rewrite — creating or destroying children) the child
container instead of the payload, and the occupancy test runs against the
rewritten container. -/
def processChilds {P σ A : Type}
    (f : σ → List (Option (NodeT P)) → A → σ × List (Option (NodeT P)) × List ℕ)
    (interp : ℕ → A → A) :
    ℕ → List ℕ → NodeT P → σ → A → σ × NodeT P × List (List ℕ × A)
  | 0, _, n, s, _ => (s, n, [])
  | fuel + 1, path, NodeT.mk p cs, s, a =>
    let r := f s cs a
    let fin := r.2.2.foldl (childStep (processChilds f interp fuel) interp path a)
      (r.1, r.2.1, [])
    (fin.1, NodeT.mk p fin.2.1, (path, a) :: fin.2.2)

theorem childStep_oob {P σ A : Type}
    (recur : List ℕ → NodeT P → σ → A → σ × NodeT P × List (List ℕ × A))
    (interp : ℕ → A → A) (path : List ℕ) (a : A)
    (acc : σ × List (Option (NodeT P)) × List (List ℕ × A)) (i : ℕ)
    (h : acc.2.1.length ≤ i) :
    childStep recur interp path a acc i = acc := by
  unfold childStep
  rw [dif_neg (not_lt.mpr h)]

theorem childStep_length {P σ A : Type}
    (recur : List ℕ → NodeT P → σ → A → σ × NodeT P × List (List ℕ × A))
    (interp : ℕ → A → A) (path : List ℕ) (a : A)
    (acc : σ × List (Option (NodeT P)) × List (List ℕ × A)) (i : ℕ) :
    (childStep recur interp path a acc i).2.1.length = acc.2.1.length := by
  unfold childStep
  split
  · split
    · simp
    · rfl
  · rfl

theorem childStep_occ {P σ A : Type}
    (recur : List ℕ → NodeT P → σ → A → σ × NodeT P × List (List ℕ × A))
    (interp : ℕ → A → A) (path : List ℕ) (a : A)
    (acc : σ × List (Option (NodeT P)) × List (List ℕ × A)) (i : ℕ) (j : ℕ) :
    occ (childStep recur interp path a acc i).2.1 j = occ acc.2.1 j := by
  unfold childStep
  split
  next h =>
    split
    next c hc =>
      show occ (acc.2.1.set i _) j = occ acc.2.1 j
      unfold occ
      by_cases hij : i = j
      · subst hij
        rw [List.getD_eq_getElem?_getD, List.getD_eq_getElem?_getD,
          List.getElem?_set_self h, List.getElem?_eq_getElem h]
        have hc2 : acc.2.1[i] = some c := hc
        rw [hc2]
        rfl
      · rw [List.getD_eq_getElem?_getD, List.getD_eq_getElem?_getD,
          List.getElem?_set_ne hij]
    next => rfl
  next => rfl

theorem foldl_childStep_length {P σ A : Type}
    (recur : List ℕ → NodeT P → σ → A → σ × NodeT P × List (List ℕ × A))
    (interp : ℕ → A → A) (path : List ℕ) (a : A) (S : List ℕ) :
    ∀ acc, ((S.foldl (childStep recur interp path a) acc).2.1.length = acc.2.1.length) := by
  induction S with
  | nil => intro acc; rfl
  | cons i S ih =>
    intro acc
    rw [List.foldl_cons, ih, childStep_length]

theorem foldl_childStep_occ {P σ A : Type}
    (recur : List ℕ → NodeT P → σ → A → σ × NodeT P × List (List ℕ × A))
    (interp : ℕ → A → A) (path : List ℕ) (a : A) (S : List ℕ) :
    ∀ acc j, occ ((S.foldl (childStep recur interp path a) acc).2.1) j = occ acc.2.1 j := by
  induction S with
  | nil => intro acc j; rfl
  | cons i S ih =>
    intro acc j
    rw [List.foldl_cons, ih, childStep_occ]

/-- Visit-log entries lying at recursion depth `d`. -/
def atDepth {A : Type} (d : ℕ) : (List ℕ × A) → Bool := fun e => e.1.length == d

theorem childStep_log_mem {P σ A : Type}
    (recur : List ℕ → NodeT P → σ → A → σ × NodeT P × List (List ℕ × A))
    (interp : ℕ → A → A) (path : List ℕ) (a : A)
    (acc : σ × List (Option (NodeT P)) × List (List ℕ × A)) (i : ℕ)
    (e : List ℕ × A) (he : e ∈ (childStep recur interp path a acc i).2.2) :
    e ∈ acc.2.2 ∨ ∃ c s, e ∈ (recur (path ++ [i]) c s (interp i a)).2.2 := by
  unfold childStep at he
  split at he
  next h =>
    split at he
    next c hc =>
      rcases List.mem_append.mp he with h1 | h1
      · exact Or.inl h1
      · exact Or.inr ⟨c, acc.1, h1⟩
    next => exact Or.inl he
  next => exact Or.inl he

theorem foldl_childStep_log_mem {P σ A : Type}
    (recur : List ℕ → NodeT P → σ → A → σ × NodeT P × List (List ℕ × A))
    (interp : ℕ → A → A) (path : List ℕ) (a : A) (S : List ℕ) :
    ∀ acc (e : List ℕ × A), e ∈ (S.foldl (childStep recur interp path a) acc).2.2 →
      e ∈ acc.2.2 ∨ ∃ i c s, e ∈ (recur (path ++ [i]) c s (interp i a)).2.2 := by
  induction S with
  | nil => exact fun acc e he => Or.inl he
  | cons i S ih =>
    intro acc e he
    rw [List.foldl_cons] at he
    rcases ih _ e he with h1 | h1
    · rcases childStep_log_mem recur interp path a acc i e h1 with h2 | ⟨c, s, h2⟩
      · exact Or.inl h2
      · exact Or.inr ⟨i, c, s, h2⟩
    · exact Or.inr h1

theorem processPayload_log_len {P σ A : Type} (f : σ → P → A → σ × P × List ℕ)
    (interp : ℕ → A → A) :
    ∀ (fuel : ℕ) (path : List ℕ) (n : NodeT P) (s : σ) (a : A) (e : List ℕ × A),
      e ∈ (processPayload f interp fuel path n s a).2.2 → path.length ≤ e.1.length := by
  intro fuel
  induction fuel with
  | zero =>
    intro path n s a e he
    cases n
    simp [processPayload] at he
  | succ k ih =>
    intro path n s a e he
    cases n with
    | mk p cs =>
      simp only [processPayload] at he
      rcases List.mem_cons.mp he with h1 | h1
      · rw [h1]
      · rcases foldl_childStep_log_mem _ interp path a _ _ e h1 with h2 | ⟨i, c, s2, h2⟩
        · simp at h2
        · have := ih (path ++ [i]) c s2 (interp i a) e h2
          simp only [List.length_append, List.length_cons, List.length_nil] at this
          omega

theorem processPayload_log_head {P σ A : Type} (f : σ → P → A → σ × P × List ℕ)
    (interp : ℕ → A → A) (fuel : ℕ) (path : List ℕ) (n : NodeT P) (s : σ) (a : A)
    (hfuel : 1 ≤ fuel) :
    ∃ tail, (processPayload f interp fuel path n s a).2.2 = (path, a) :: tail ∧
      ∀ e ∈ tail, path.length < e.1.length := by
  cases fuel with
  | zero => omega
  | succ k =>
    cases n with
    | mk p cs =>
      refine ⟨_, rfl, ?_⟩
      intro e he
      rcases foldl_childStep_log_mem _ interp path a _ _ e he with h2 | ⟨i, c, s2, h2⟩
      · simp at h2
      · have := processPayload_log_len f interp k (path ++ [i]) c s2 (interp i a) e h2
        simp only [List.length_append, List.length_cons, List.length_nil] at this
        omega

theorem processPayload_log_filter_at {P σ A : Type} (f : σ → P → A → σ × P × List ℕ)
    (interp : ℕ → A → A) (fuel : ℕ) (path : List ℕ) (n : NodeT P) (s : σ) (a : A)
    (hfuel : 1 ≤ fuel) :
    ((processPayload f interp fuel path n s a).2.2).filter (atDepth path.length) =
      [(path, a)] := by
  obtain ⟨tail, heq, hlen⟩ := processPayload_log_head f interp fuel path n s a hfuel
  rw [heq]
  rw [List.filter_cons_of_pos (by simp [atDepth])]
  have : tail.filter (atDepth path.length) = [] := by
    rw [List.filter_eq_nil_iff]
    intro e he
    have := hlen e he
    simp [atDepth]
    omega
  rw [this]

theorem processChilds_log_len {P σ A : Type}
    (f : σ → List (Option (NodeT P)) → A → σ × List (Option (NodeT P)) × List ℕ)
    (interp : ℕ → A → A) :
    ∀ (fuel : ℕ) (path : List ℕ) (n : NodeT P) (s : σ) (a : A) (e : List ℕ × A),
      e ∈ (processChilds f interp fuel path n s a).2.2 → path.length ≤ e.1.length := by
  intro fuel
  induction fuel with
  | zero =>
    intro path n s a e he
    cases n
    simp [processChilds] at he
  | succ k ih =>
    intro path n s a e he
    cases n with
    | mk p cs =>
      simp only [processChilds] at he
      rcases List.mem_cons.mp he with h1 | h1
      · rw [h1]
      · rcases foldl_childStep_log_mem _ interp path a _ _ e h1 with h2 | ⟨i, c, s2, h2⟩
        · simp at h2
        · have := ih (path ++ [i]) c s2 (interp i a) e h2
          simp only [List.length_append, List.length_cons, List.length_nil] at this
          omega

theorem processChilds_log_head {P σ A : Type}
    (f : σ → List (Option (NodeT P)) → A → σ × List (Option (NodeT P)) × List ℕ)
    (interp : ℕ → A → A) (fuel : ℕ) (path : List ℕ) (n : NodeT P) (s : σ) (a : A)
    (hfuel : 1 ≤ fuel) :
    ∃ tail, (processChilds f interp fuel path n s a).2.2 = (path, a) :: tail ∧
      ∀ e ∈ tail, path.length < e.1.length := by
  cases fuel with
  | zero => omega
  | succ k =>
    cases n with
    | mk p cs =>
      refine ⟨_, rfl, ?_⟩
      intro e he
      rcases foldl_childStep_log_mem _ interp path a _ _ e he with h2 | ⟨i, c, s2, h2⟩
      · simp at h2
      · have := processChilds_log_len f interp k (path ++ [i]) c s2 (interp i a) e h2
        simp only [List.length_append, List.length_cons, List.length_nil] at this
        omega

theorem processChilds_log_filter_at {P σ A : Type}
    (f : σ → List (Option (NodeT P)) → A → σ × List (Option (NodeT P)) × List ℕ)
    (interp : ℕ → A → A) (fuel : ℕ) (path : List ℕ) (n : NodeT P) (s : σ) (a : A)
    (hfuel : 1 ≤ fuel) :
    ((processChilds f interp fuel path n s a).2.2).filter (atDepth path.length) =
      [(path, a)] := by
  obtain ⟨tail, heq, hlen⟩ := processChilds_log_head f interp fuel path n s a hfuel
  rw [heq]
  rw [List.filter_cons_of_pos (by simp [atDepth])]
  have : tail.filter (atDepth path.length) = [] := by
    rw [List.filter_eq_nil_iff]
    intro e he
    have := hlen e he
    simp [atDepth]
    omega
  rw [this]

/-- Dispatch characterization of the `for_each` fold shared by the two
traversals: given that each recursive call contributes exactly one visit-log
entry at the children's depth (namely its own root visit), folding the
target list `S` appends, at that depth, exactly one entry `(path ++ [i],
interp i a)` per element `i` of `S` that is in range and whose slot is
occupied. -/
theorem foldl_childStep_calls {P σ A : Type}
    (recur : List ℕ → NodeT P → σ → A → σ × NodeT P × List (List ℕ × A))
    (interp : ℕ → A → A) (path : List ℕ) (a : A) (N : ℕ)
    (cs0 : List (Option (NodeT P)))
    (hrec : ∀ i c s, ((recur (path ++ [i]) c s (interp i a)).2.2).filter
        (atDepth (path.length + 1)) = [(path ++ [i], interp i a)]) :
    ∀ (S : List ℕ) (acc : σ × List (Option (NodeT P)) × List (List ℕ × A)),
      acc.2.1.length = N → (∀ j, occ acc.2.1 j = occ cs0 j) →
      ((S.foldl (childStep recur interp path a) acc).2.2).filter
          (atDepth (path.length + 1)) =
        acc.2.2.filter (atDepth (path.length + 1)) ++
          (S.filter (fun i => decide (i < N) && occ cs0 i)).map
            (fun i => (path ++ [i], interp i a)) := by
  intro S
  induction S with
  | nil =>
    intro acc _ _
    simp
  | cons i S ih =>
    intro acc hlen hocc
    rw [List.foldl_cons]
    by_cases hi : i < acc.2.1.length
    · have hiN : i < N := hlen ▸ hi
      rcases hslot : acc.2.1.get ⟨i, hi⟩ with _ | c
      · -- absent slot: the step is a no-op and the index is filtered out
        have hstep : childStep recur interp path a acc i = acc := by
          unfold childStep
          rw [dif_pos hi, hslot]
        have hocci : occ cs0 i = false := by
          rw [← hocc i]
          unfold occ
          rw [List.getD_eq_getElem?_getD, List.getElem?_eq_getElem hi]
          have : acc.2.1[i] = none := hslot
          rw [this]
          rfl
        rw [hstep, ih acc hlen hocc, List.filter_cons_of_neg (by simp [hocci])]
      · -- occupied slot: the step recurses and logs exactly one depth-1 entry
        have hocci : occ cs0 i = true := by
          rw [← hocc i]
          unfold occ
          rw [List.getD_eq_getElem?_getD, List.getElem?_eq_getElem hi]
          have : acc.2.1[i] = some c := hslot
          rw [this]
          rfl
        have hstep : childStep recur interp path a acc i =
            ((recur (path ++ [i]) c acc.1 (interp i a)).1,
             acc.2.1.set i (some (recur (path ++ [i]) c acc.1 (interp i a)).2.1),
             acc.2.2 ++ (recur (path ++ [i]) c acc.1 (interp i a)).2.2) := by
          unfold childStep
          rw [dif_pos hi, hslot]
        rw [hstep]
        have hlen2 : (acc.2.1.set i (some (recur (path ++ [i]) c acc.1 (interp i a)).2.1)).length = N := by
          rw [List.length_set]
          exact hlen
        have hocc2 : ∀ j, occ (acc.2.1.set i (some (recur (path ++ [i]) c acc.1 (interp i a)).2.1)) j = occ cs0 j := by
          intro j
          rw [← hocc j]
          unfold occ
          by_cases hij : i = j
          · subst hij
            rw [List.getD_eq_getElem?_getD, List.getD_eq_getElem?_getD,
              List.getElem?_set_self hi, List.getElem?_eq_getElem hi]
            have : acc.2.1[i] = some c := hslot
            rw [this]
            rfl
          · rw [List.getD_eq_getElem?_getD, List.getD_eq_getElem?_getD,
              List.getElem?_set_ne hij]
        rw [ih _ hlen2 hocc2]
        rw [List.filter_append, hrec i c acc.1,
          List.filter_cons_of_pos (by simp [hiN, hocci])]
        simp
    · have hiN : ¬ i < N := hlen ▸ hi
      rw [childStep_oob recur interp path a acc i (not_lt.mp hi),
        ih acc hlen hocc, List.filter_cons_of_neg (by simp [hiN])]

/-- Top-level recursion discipline of `Node::processPayload`: with enough
fuel, the depth-1 visit-log entries are exactly one `([i], interp i a)` per
element `i` of the predicate's target list that is in range and whose slot is
occupied, in order. -/
theorem processPayload_calls {P σ A : Type} (f : σ → P → A → σ × P × List ℕ)
    (interp : ℕ → A → A) (fuel : ℕ) (p : P) (cs : List (Option (NodeT P)))
    (s : σ) (a : A) (hfuel : 2 ≤ fuel) :
    ((processPayload f interp fuel [] (NodeT.mk p cs) s a).2.2).filter (atDepth 1) =
      (((f s p a).2.2).filter (fun i => decide (i < cs.length) && occ cs i)).map
        (fun i => ([i], interp i a)) := by
  cases fuel with
  | zero => exact absurd hfuel (by omega)
  | succ k =>
    have hk : 1 ≤ k := by omega
    have hrec : ∀ (i : ℕ) (c : NodeT P) (s2 : σ),
        ((processPayload f interp k (([] : List ℕ) ++ [i]) c s2 (interp i a)).2.2).filter
          (atDepth (([] : List ℕ).length + 1)) = [(([] : List ℕ) ++ [i], interp i a)] := by
      intro i c s2
      have := processPayload_log_filter_at f interp k ([] ++ [i]) c s2 (interp i a) hk
      simpa using this
    have hmain := foldl_childStep_calls (processPayload f interp k) interp [] a
      cs.length cs hrec ((f s p a).2.2) ((f s p a).1, cs, []) rfl (fun j => rfl)
    simp only [List.length_nil, Nat.zero_add, List.filter_nil, List.nil_append]
      at hmain
    show ((processPayload f interp (k + 1) [] (NodeT.mk p cs) s a).2.2).filter
        (atDepth 1) = _
    simp only [processPayload]
    rw [List.filter_cons_of_neg (by simp [atDepth])]
    exact hmain

/-- Top-level recursion discipline of `Node::processChilds`: as for
`processPayload`, with occupancy taken in the container as rewritten by the
predicate. -/
theorem processChilds_calls {P σ A : Type}
    (g : σ → List (Option (NodeT P)) → A → σ × List (Option (NodeT P)) × List ℕ)
    (interp : ℕ → A → A) (fuel : ℕ) (p : P) (cs : List (Option (NodeT P)))
    (s : σ) (a : A) (hfuel : 2 ≤ fuel) :
    ((processChilds g interp fuel [] (NodeT.mk p cs) s a).2.2).filter (atDepth 1) =
      (((g s cs a).2.2).filter
          (fun i => decide (i < (g s cs a).2.1.length) && occ (g s cs a).2.1 i)).map
        (fun i => ([i], interp i a)) := by
  cases fuel with
  | zero => exact absurd hfuel (by omega)
  | succ k =>
    have hk : 1 ≤ k := by omega
    have hrec : ∀ (i : ℕ) (c : NodeT P) (s2 : σ),
        ((processChilds g interp k (([] : List ℕ) ++ [i]) c s2 (interp i a)).2.2).filter
          (atDepth (([] : List ℕ).length + 1)) = [(([] : List ℕ) ++ [i], interp i a)] := by
      intro i c s2
      have := processChilds_log_filter_at g interp k ([] ++ [i]) c s2 (interp i a) hk
      simpa using this
    have hmain := foldl_childStep_calls (processChilds g interp k) interp [] a
      (g s cs a).2.1.length (g s cs a).2.1 hrec ((g s cs a).2.2)
      ((g s cs a).1, (g s cs a).2.1, []) rfl (fun j => rfl)
    simp only [List.length_nil, Nat.zero_add, List.filter_nil, List.nil_append]
      at hmain
    show ((processChilds g interp (k + 1) [] (NodeT.mk p cs) s a).2.2).filter
        (atDepth 1) = _
    simp only [processChilds]
    rw [List.filter_cons_of_neg (by simp [atDepth])]
    exact hmain

/-- C6: for every node, predicate and index sequence S returned by the
predicate, `processPayload` recurses (at the top level) exactly into the
children whose index is in S, below the container size, and whose slot is
occupied — in order, each recursion receiving the arguments produced by one
`interpolate_func` call for that child index — and children whose index is
not in S receive zero calls; likewise `processChilds` (with occupancy taken
in the container as rewritten by its predicate). -/
theorem c6_selective_descent {P σ A : Type} (f : σ → P → A → σ × P × List ℕ)
    (g : σ → List (Option (NodeT P)) → A → σ × List (Option (NodeT P)) × List ℕ)
    (interp : ℕ → A → A) (fuel : ℕ) (p : P) (cs : List (Option (NodeT P)))
    (s : σ) (a : A) (hfuel : 2 ≤ fuel) :
    ((processPayload f interp fuel [] (NodeT.mk p cs) s a).2.2).filter (atDepth 1) =
      (((f s p a).2.2).filter (fun i => decide (i < cs.length) && occ cs i)).map
        (fun i => ([i], interp i a)) ∧
    ((processChilds g interp fuel [] (NodeT.mk p cs) s a).2.2).filter (atDepth 1) =
      (((g s cs a).2.2).filter
          (fun i => decide (i < (g s cs a).2.1.length) && occ (g s cs a).2.1 i)).map
        (fun i => ([i], interp i a)) ∧
    (∀ i x, i ∉ (f s p a).2.2 →
      ([i], x) ∉ (processPayload f interp fuel [] (NodeT.mk p cs) s a).2.2) := by
  have h1 := processPayload_calls f interp fuel p cs s a hfuel
  refine ⟨h1, processChilds_calls g interp fuel p cs s a hfuel, ?_⟩
  intro i x hi hmem
  have hdep : ([i], x) ∈ ((processPayload f interp fuel [] (NodeT.mk p cs) s a).2.2).filter
      (atDepth 1) := List.mem_filter.mpr ⟨hmem, by simp [atDepth]⟩
  rw [h1] at hdep
  obtain ⟨j, hj, hjeq⟩ := List.mem_map.mp hdep
  have hji : j = i := by
    have := congrArg Prod.fst hjeq
    simpa using this
  exact hi (hji ▸ (List.mem_filter.mp hj).1)

/-- Concrete payload predicate for the C6 witness: targets indices 0, 9, 1. -/
def c6f : ℕ → ℕ → ℕ → ℕ × ℕ × List ℕ := fun s p _ => (s, p, [0, 9, 1])

/-- Concrete childs predicate for the C6 witness: targets index 0. -/
def c6g : ℕ → List (Option (NodeT ℕ)) → ℕ → ℕ × List (Option (NodeT ℕ)) × List ℕ :=
  fun s cs _ => (s, cs, [0])

/-- Concrete interpolation for the C6 witness. -/
def c6interp : ℕ → ℕ → ℕ := fun i a => a + i

/-- Concrete child container for the C6 witness: slot 0 occupied, slot 1 empty. -/
def c6cs : List (Option (NodeT ℕ)) := [some (NodeT.mk 5 []), none]

/-- C6 (witness): the selective-descent statement applied at a concrete
two-slot node. -/
theorem c6_witness :
    ((processPayload c6f c6interp 2 [] (NodeT.mk 7 c6cs) 0 3).2.2).filter (atDepth 1) =
      (((c6f 0 7 3).2.2).filter (fun i => decide (i < c6cs.length) && occ c6cs i)).map
        (fun i => ([i], c6interp i 3)) ∧
    ((processChilds c6g c6interp 2 [] (NodeT.mk 7 c6cs) 0 3).2.2).filter (atDepth 1) =
      (((c6g 0 c6cs 3).2.2).filter
          (fun i => decide (i < (c6g 0 c6cs 3).2.1.length) && occ (c6g 0 c6cs 3).2.1 i)).map
        (fun i => ([i], c6interp i 3)) ∧
    (∀ i x, i ∉ (c6f 0 7 3).2.2 →
      ([i], x) ∉ (processPayload c6f c6interp 2 [] (NodeT.mk 7 c6cs) 0 3).2.2) :=
  c6_selective_descent c6f c6g c6interp 2 7 c6cs 0 3 (by norm_num)

/-- `Tree::kChildsIndexes`: the full child-index universe {0, …, N-1}. -/
def kChildsIndexes (N : ℕ) : List ℕ := List.range N

/-- Child-creation body of the predicate `Tree::insertNodes` wraps around
`insert_func`: obtain the target indices, and for each one that is in range
and absent construct a fresh child node with default payload `p0` and an
all-absent child array; the target indices are returned unchanged.  Returns
(updated container, indices handed to the traversal). -/
def insertSlot {P : Type} (p0 : P) (cs2 : List (Option (NodeT P))) (i : ℕ) :
    List (Option (NodeT P)) :=
  if h : i < cs2.length then
    match cs2.get ⟨i, h⟩ with
    | none => cs2.set i
        (some (NodeT.mk p0 (List.replicate cs2.length (none : Option (NodeT P)))))
    | some _ => cs2
  else cs2

def insertStep {P Sh B : Type} (p0 : P) (insertFn : Sh → B → List ℕ)
    (cs : List (Option (NodeT P))) (shape : Sh) (b : B) :
    List (Option (NodeT P)) × List ℕ :=
  let targets := insertFn shape b
  (targets.foldl (insertSlot p0) cs, targets)

/-- Child-removal body of the predicate `Tree::removeNodes` wraps around
`remove_func`: obtain the target indices, reset each in-range occupied slot,
and return the complement (`std::set_difference` of `kChildsIndexes` and the
sorted targets, i.e. the ascending list of in-range indices not targeted). -/
def removeSlot {P : Type} (cs2 : List (Option (NodeT P))) (i : ℕ) :
    List (Option (NodeT P)) :=
  if h : i < cs2.length then
    match cs2.get ⟨i, h⟩ with
    | some _ => cs2.set i none
    | none => cs2
  else cs2

def removeStep {P Sh B : Type} (removeFn : Sh → B → List ℕ)
    (cs : List (Option (NodeT P))) (shape : Sh) (b : B) :
    List (Option (NodeT P)) × List ℕ :=
  let targets := removeFn shape b
  (targets.foldl removeSlot cs,
   (kChildsIndexes cs.length).filter (fun i => decide (i ∉ targets)))

/-- `tree::Tree<Payload, N, Shape>`: a root node plus the root shape. -/
structure TreeT (P Sh : Type) where
  root : NodeT P
  shape : Sh

/-- `Tree::insertNodes`: runs `processChilds` on the root with the insertion
predicate wrapped around `insert_func` and the argument interpolation that
replaces the shape by `shape_func(child_index, shape)`.  The shape member is
only read (passed as the first traversal argument), never written. -/
def TreeT.insertNodes {P Sh B : Type} (t : TreeT P Sh) (p0 : P)
    (insertFn : Sh → B → List ℕ) (shapeFn : ℕ → Sh → Sh) (fuel : ℕ) (b : B) :
    TreeT P Sh :=
  { root := (processChilds
      (fun (_ : Unit) cs (sb : Sh × B) =>
        let r := insertStep p0 insertFn cs sb.1 sb.2
        ((), r.1, r.2))
      (fun i (sb : Sh × B) => (shapeFn i sb.1, sb.2))
      fuel [] t.root () (t.shape, b)).2.1,
    shape := t.shape }

/-- `Tree::removeNodes`: symmetric to `insertNodes`, with the removal
predicate wrapped around `remove_func`. -/
def TreeT.removeNodes {P Sh B : Type} (t : TreeT P Sh)
    (removeFn : Sh → B → List ℕ) (shapeFn : ℕ → Sh → Sh) (fuel : ℕ) (b : B) :
    TreeT P Sh :=
  { root := (processChilds
      (fun (_ : Unit) cs (sb : Sh × B) =>
        let r := removeStep removeFn cs sb.1 sb.2
        ((), r.1, r.2))
      (fun i (sb : Sh × B) => (shapeFn i sb.1, sb.2))
      fuel [] t.root () (t.shape, b)).2.1,
    shape := t.shape }

/-- `Tree::processNodes`: runs `processPayload` on the root with the caller's
predicate unchanged (state `σ` models the C++ closure's captured mutable
state) and the same shape interpolation. -/
def TreeT.processNodes {P Sh B σ : Type} (t : TreeT P Sh)
    (processFn : σ → P → Sh → B → σ × P × List ℕ) (shapeFn : ℕ → Sh → Sh)
    (fuel : ℕ) (s : σ) (b : B) : σ × TreeT P Sh :=
  let r := processPayload
    (fun s2 p (sb : Sh × B) => processFn s2 p sb.1 sb.2)
    (fun i (sb : Sh × B) => (shapeFn i sb.1, sb.2))
    fuel [] t.root s (t.shape, b)
  (r.1, { root := r.2.1, shape := t.shape })

/-- One tree operation with its parameters, for stating frame properties over
arbitrary operation sequences. -/
inductive TreeOp (P Sh B σ : Type) : Type where
  | insertOp (p0 : P) (fn : Sh → B → List ℕ) (shapeFn : ℕ → Sh → Sh) (fuel : ℕ) (b : B)
  | removeOp (fn : Sh → B → List ℕ) (shapeFn : ℕ → Sh → Sh) (fuel : ℕ) (b : B)
  | processOp (fn : σ → P → Sh → B → σ × P × List ℕ) (shapeFn : ℕ → Sh → Sh)
      (fuel : ℕ) (s : σ) (b : B)

/-- Applies one tree operation. -/
def applyOp {P Sh B σ : Type} (t : TreeT P Sh) : TreeOp P Sh B σ → TreeT P Sh
  | .insertOp p0 fn sf fuel b => t.insertNodes p0 fn sf fuel b
  | .removeOp fn sf fuel b => t.removeNodes fn sf fuel b
  | .processOp fn sf fuel s b => (t.processNodes fn sf fuel s b).2

/-- C10: every Tree operation — `insertNodes`, `removeNodes`, `processNodes`
— and hence every sequence of such operations leaves the tree's stored root
shape unchanged: the shape is only ever read into the traversal's argument
tuple, and the shape member is never written after construction. -/
theorem c10_tree_ops_preserve_shape {P Sh B σ : Type} :
    (∀ (t : TreeT P Sh) (p0 : P) (fn : Sh → B → List ℕ) (sf : ℕ → Sh → Sh)
      (fuel : ℕ) (b : B), (t.insertNodes p0 fn sf fuel b).shape = t.shape) ∧
    (∀ (t : TreeT P Sh) (fn : Sh → B → List ℕ) (sf : ℕ → Sh → Sh)
      (fuel : ℕ) (b : B), (t.removeNodes fn sf fuel b).shape = t.shape) ∧
    (∀ (t : TreeT P Sh) (fn : σ → P → Sh → B → σ × P × List ℕ) (sf : ℕ → Sh → Sh)
      (fuel : ℕ) (s : σ) (b : B), (t.processNodes fn sf fuel s b).2.shape = t.shape) ∧
    (∀ (ops : List (TreeOp P Sh B σ)) (t : TreeT P Sh),
      (ops.foldl applyOp t).shape = t.shape) := by
  refine ⟨fun _ _ _ _ _ _ => rfl, fun _ _ _ _ _ => rfl, fun _ _ _ _ _ _ => rfl, ?_⟩
  intro ops
  induction ops with
  | nil => exact fun t => rfl
  | cons op ops ih =>
    intro t
    rw [List.foldl_cons, ih]
    cases op <;> rfl

/-- Folding a list of indices with a step function that preserves a length
measure and is the identity above it visits only the in-range indices. -/
theorem foldl_filter_inrange {β : Type} (step : β → ℕ → β) (len : β → ℕ)
    (hlen : ∀ b i, len (step b i) = len b)
    (hid : ∀ b i, len b ≤ i → step b i = b) :
    ∀ (S : List ℕ) (b : β),
      S.foldl step b = (S.filter (fun i => decide (i < len b))).foldl step b := by
  intro S
  induction S with
  | nil => intro b; rfl
  | cons i S ih =>
    intro b
    by_cases hi : i < len b
    · rw [List.filter_cons_of_pos (by simpa using hi), List.foldl_cons,
        List.foldl_cons, ih (step b i)]
      have hpred : (fun j => decide (j < len (step b i))) =
          (fun j => decide (j < len b)) := by
        funext j
        rw [hlen]
      rw [hpred]
    · rw [List.filter_cons_of_neg (by simpa using hi), List.foldl_cons,
        hid b i (not_lt.mp hi), ih b]

theorem foldl_len_const {β : Type} (step : β → ℕ → β) (len : β → ℕ)
    (hlen : ∀ b i, len (step b i) = len b) :
    ∀ (S : List ℕ) (b : β), len (S.foldl step b) = len b := by
  intro S
  induction S with
  | nil => intro b; rfl
  | cons i S ih =>
    intro b
    rw [List.foldl_cons, ih, hlen]

theorem insertSlot_length {P : Type} (p0 : P) (cs2 : List (Option (NodeT P)))
    (i : ℕ) : (insertSlot p0 cs2 i).length = cs2.length := by
  unfold insertSlot
  split
  · split
    · simp
    · rfl
  · rfl

theorem insertSlot_oob {P : Type} (p0 : P) (cs2 : List (Option (NodeT P)))
    (i : ℕ) (h : cs2.length ≤ i) : insertSlot p0 cs2 i = cs2 := by
  unfold insertSlot
  rw [dif_neg (not_lt.mpr h)]

theorem removeSlot_length {P : Type} (cs2 : List (Option (NodeT P)))
    (i : ℕ) : (removeSlot cs2 i).length = cs2.length := by
  unfold removeSlot
  split
  · split
    · simp
    · rfl
  · rfl

theorem removeSlot_oob {P : Type} (cs2 : List (Option (NodeT P)))
    (i : ℕ) (h : cs2.length ≤ i) : removeSlot cs2 i = cs2 := by
  unfold removeSlot
  rw [dif_neg (not_lt.mpr h)]

/-- C9: out-of-range child indices returned by any caller-supplied predicate
are silently ignored everywhere.  (a) The traversal dispatch shared by
`processPayload` and `processChilds` behaves identically when all indices at
or above the container size are dropped from the target list (no recursion,
no out-of-bounds access — the embedding is total).  (b) `insertNodes`'s
slot-creation pass produces the same container when out-of-range targets are
dropped, and never changes the container's size (no child is created at an
out-of-range index).  (c) `removeNodes`'s predicate likewise: both the
updated container and the returned complement are unchanged by dropping
out-of-range targets, and the container's size is preserved. -/
theorem c9_oob_indices_ignored {P σ A Sh B : Type} :
    (∀ (recur : List ℕ → NodeT P → σ → A → σ × NodeT P × List (List ℕ × A))
      (interp : ℕ → A → A) (path : List ℕ) (a : A) (S : List ℕ)
      (acc : σ × List (Option (NodeT P)) × List (List ℕ × A)),
      S.foldl (childStep recur interp path a) acc =
        (S.filter (fun i => decide (i < acc.2.1.length))).foldl
          (childStep recur interp path a) acc) ∧
    (∀ (p0 : P) (fn : Sh → B → List ℕ) (cs : List (Option (NodeT P)))
      (shape : Sh) (b : B),
      (insertStep p0 fn cs shape b).1 =
        (insertStep p0 (fun s2 b2 => (fn s2 b2).filter
          (fun i => decide (i < cs.length))) cs shape b).1 ∧
      (insertStep p0 fn cs shape b).1.length = cs.length) ∧
    (∀ (fn : Sh → B → List ℕ) (cs : List (Option (NodeT P))) (shape : Sh) (b : B),
      removeStep (P := P) fn cs shape b =
        removeStep (fun s2 b2 => (fn s2 b2).filter
          (fun i => decide (i < cs.length))) cs shape b ∧
      (removeStep (P := P) fn cs shape b).1.length = cs.length) := by
  refine ⟨?_, ?_, ?_⟩
  · intro recur interp path a S acc
    exact foldl_filter_inrange (childStep recur interp path a)
      (fun acc2 => acc2.2.1.length)
      (fun b2 i => childStep_length recur interp path a b2 i)
      (fun b2 i h => childStep_oob recur interp path a b2 i h) S acc
  · intro p0 fn cs shape b
    constructor
    · exact foldl_filter_inrange (insertSlot p0) List.length
        (fun b2 i => insertSlot_length p0 b2 i)
        (fun b2 i h => insertSlot_oob p0 b2 i h) (fn shape b) cs
    · exact foldl_len_const (insertSlot p0) List.length
        (fun b2 i => insertSlot_length p0 b2 i) (fn shape b) cs
  · intro fn cs shape b
    constructor
    · have h1 : (fn shape b).foldl removeSlot cs =
          ((fn shape b).filter (fun i => decide (i < cs.length))).foldl
            (removeSlot (P := P)) cs :=
        foldl_filter_inrange removeSlot List.length
          (fun b2 i => removeSlot_length b2 i)
          (fun b2 i h => removeSlot_oob b2 i h) (fn shape b) cs
      have h2 : (kChildsIndexes cs.length).filter
            (fun i => decide (i ∉ fn shape b)) =
          (kChildsIndexes cs.length).filter
            (fun i => decide (i ∉ (fn shape b).filter
              (fun j => decide (j < cs.length)))) := by
        apply List.filter_congr
        intro i hi
        have hilt : i < cs.length := List.mem_range.mp hi
        have : (i ∈ fn shape b) ↔
            (i ∈ (fn shape b).filter (fun j => decide (j < cs.length))) := by
          rw [List.mem_filter]
          simp [hilt]
        simp only [decide_eq_decide]
        rw [this]
      show ((fn shape b).foldl removeSlot cs, _) = (_, _)
      rw [h1, h2]
    · exact foldl_len_const removeSlot List.length
        (fun b2 i => removeSlot_length b2 i) (fn shape b) cs

/-- Slot-wise effect of `removeNodes`'s removal pass: a slot ends up absent
exactly when its index was targeted; untargeted slots are untouched. -/
theorem removeFold_getD {P : Type} :
    ∀ (T : List ℕ) (cs : List (Option (NodeT P))) (j : ℕ),
      (T.foldl removeSlot cs).getD j none =
        if j ∈ T then none else cs.getD j none := by
  intro T
  induction T with
  | nil =>
    intro cs j
    simp
  | cons t T ih =>
    intro cs j
    rw [List.foldl_cons, ih]
    by_cases hjT : j ∈ T
    · simp [hjT, List.mem_cons]
    · by_cases hjt : j = t
      · subst hjt
        have hnone : (removeSlot cs j).getD j none = none := by
          unfold removeSlot
          split
          next h =>
            split
            next c hc =>
              rw [List.getD_eq_getElem?_getD, List.getElem?_set_self h]
              rfl
            next hc =>
              rw [List.getD_eq_getElem?_getD, List.getElem?_eq_getElem h]
              have : cs[j] = none := hc
              rw [this]
              rfl
          next h =>
            exact List.getD_eq_default _ _ (not_lt.mp h)
        simp only [List.getD_eq_getElem?_getD] at hnone
        simp [hjT, hnone, List.mem_cons]
      · have hkeep : (removeSlot cs t).getD j none = cs.getD j none := by
          unfold removeSlot
          split
          next h =>
            split
            next c hc =>
              rw [List.getD_eq_getElem?_getD, List.getD_eq_getElem?_getD,
                List.getElem?_set_ne (fun hh => hjt hh.symm)]
            next => rfl
          next => rfl
        simp only [List.getD_eq_getElem?_getD] at hkeep
        simp [hjT, hjt, hkeep, List.mem_cons]

/-- C5: the predicate `Tree::removeNodes` hands to the traversal resets
exactly the child slots at the indices `remove_func` returns (out-of-range
indices touch nothing, untargeted slots are preserved), and returns the
complement of the removed-index set relative to the index universe
{0, …, N-1}; consequently the traversal recurses into exactly the remaining
(not removed, still occupied) children. -/
theorem c5_removeNodes_predicate {P Sh B : Type} (removeFn : Sh → B → List ℕ)
    (cs : List (Option (NodeT P))) (shape : Sh) (b : B) :
    (removeStep removeFn cs shape b).1.length = cs.length ∧
    (∀ j, j ∈ removeFn shape b →
      (removeStep removeFn cs shape b).1.getD j none = none) ∧
    (∀ j, j ∉ removeFn shape b →
      (removeStep removeFn cs shape b).1.getD j none = cs.getD j none) ∧
    (∀ i, i ∈ (removeStep removeFn cs shape b).2 ↔
      (i < cs.length ∧ i ∉ removeFn shape b)) ∧
    (∀ (p : P) (shapeFn : ℕ → Sh → Sh) (fuel : ℕ), 2 ≤ fuel →
      ((processChilds (fun (_ : Unit) cs2 (sb : Sh × B) =>
            let r := removeStep removeFn cs2 sb.1 sb.2
            ((), r.1, r.2))
          (fun i (sb : Sh × B) => (shapeFn i sb.1, sb.2))
          fuel [] (NodeT.mk p cs) () (shape, b)).2.2).filter (atDepth 1) =
        (((removeStep removeFn cs shape b).2).filter
            (fun i => decide (i < (removeStep removeFn cs shape b).1.length) &&
              occ (removeStep removeFn cs shape b).1 i)).map
          (fun i => (([i] : List ℕ), ((shapeFn i shape, b) : Sh × B)))) := by
  refine ⟨?_, ?_, ?_, ?_, ?_⟩
  · exact foldl_len_const removeSlot List.length
      (fun b2 i => removeSlot_length b2 i) (removeFn shape b) cs
  · intro j hj
    show ((removeFn shape b).foldl removeSlot cs).getD j none = none
    rw [removeFold_getD, if_pos hj]
  · intro j hj
    show ((removeFn shape b).foldl removeSlot cs).getD j none = cs.getD j none
    rw [removeFold_getD, if_neg hj]
  · intro i
    show i ∈ (kChildsIndexes cs.length).filter
      (fun i2 => decide (i2 ∉ removeFn shape b)) ↔ _
    rw [List.mem_filter]
    unfold kChildsIndexes
    simp
  · intro p shapeFn fuel hfuel
    exact processChilds_calls
      (fun (_ : Unit) cs2 (sb : Sh × B) =>
        let r := removeStep removeFn cs2 sb.1 sb.2
        ((), r.1, r.2))
      (fun i (sb : Sh × B) => (shapeFn i sb.1, sb.2))
      fuel p cs () (shape, b) hfuel

/-- Concrete removal predicate for the C5 witness: removes indices 1 and 5. -/
def c5fn : ℕ → ℕ → List ℕ := fun _ _ => [1, 5]

/-- Concrete child container for the C5 witness. -/
def c5cs : List (Option (NodeT ℕ)) :=
  [some (NodeT.mk 1 []), some (NodeT.mk 2 []), none]

/-- C5 (witness): the traversal-continuation conjunct applied at a concrete
container, predicate and fuel. -/
theorem c5_witness :
    ((processChilds (fun (_ : Unit) cs2 (sb : ℕ × ℕ) =>
          let r := removeStep c5fn cs2 sb.1 sb.2
          ((), r.1, r.2))
        (fun i (sb : ℕ × ℕ) => ((fun j s => s + j) i sb.1, sb.2))
        2 [] (NodeT.mk 9 c5cs) () (0, 0)).2.2).filter (atDepth 1) =
      (((removeStep c5fn c5cs 0 0).2).filter
          (fun i => decide (i < (removeStep c5fn c5cs 0 0).1.length) &&
            occ (removeStep c5fn c5cs 0 0).1 i)).map
        (fun i => (([i] : List ℕ), (((fun j s => s + j) i 0, 0) : ℕ × ℕ))) :=
  (c5_removeNodes_predicate c5fn c5cs 0 0).2.2.2.2 9 (fun j s => s + j) 2
    (by norm_num)

/-- `Tracer::predictChild`: pick the child index for the intersection point
`point` by comparing each coordinate against the half-extent vector (the
C++ compares `point` with `shapeHalf(shape)`, not with the box midpoint),
intersecting the per-axis octant tables with the tree's index universe
(`std::set_intersection` over sorted duplicate-free ranges is an
order-preserving membership filter), and returning the first surviving index
(or 0 if none). -/
def predictChild (shape : Shape) (point : Vec3) (indexes : List ℕ) : ℕ :=
  let half := shapeHalf shape
  let target_x : List ℕ := if point.x < half.x then [0, 2, 4, 6] else [1, 3, 5, 7]
  let target_y : List ℕ := if point.y < half.y then [0, 1, 4, 5] else [2, 3, 6, 7]
  let target_z : List ℕ := if point.z < half.z then [0, 1, 2, 3] else [4, 5, 6, 7]
  let res_a := indexes.filter (fun i => decide (i ∈ target_x))
  let res_b := target_y.filter (fun i => decide (i ∈ target_z))
  let res := res_a.filter (fun i => decide (i ∈ res_b))
  res.headD 0

/-- Insertion predicate of `Tracer::buildTree` (and the removal predicate of
`Tracer::burnTree`, which is textually identical): when the ray hits the
shape and `power < shapeDiag(shape)`, return the single child index chosen by
`predictChild` for the reflect-ray position; otherwise the empty list.
`indexes` models `tree.nodesIndexes()`, the tree's index universe. -/
def buildInsertPred (eps : ℚ) (indexes : List ℕ) (shape : Shape) (ray : Ray)
    (power : ℚ) : List ℕ :=
  let ri := rayShapeIntersection eps ray shape
  if isPositive eps ri.1 ∧ powerLtDiag power shape then
    [predictChild shape ri.2.pos indexes]
  else []

/-- `Tracer::buildTree`: insert nodes along the ray's path. -/
def buildTree {P : Type} (eps : ℚ) (indexes : List ℕ) (t : TreeT P Shape)
    (p0 : P) (ray : Ray) (power : ℚ) (fuel : ℕ) : TreeT P Shape :=
  t.insertNodes p0
    (fun shape (rp : Ray × ℚ) => buildInsertPred eps indexes shape rp.1 rp.2)
    shapeChild fuel (ray, power)

/-- Output state of `Tracer::castTree`: the three by-reference output
parameters `dist`, `reflect_ray`, `reflect_payload`. -/
structure CastState (P : Type) where
  dist : ℚ
  reflect : Ray
  payload : P
deriving DecidableEq

/-- Body of the lambda `Tracer::castTree` passes to `processNodes`: assign
`dist = rayShapeIntersection(ray, shape, reflect_ray)` (which also rewrites
`reflect_ray`) unconditionally; when the distance is positive record the
payload and, when `power < shapeDiag(shape)`, descend into all of the tree's
child indices; otherwise return no children. -/
def castVisit {P : Type} (eps : ℚ) (indexes : List ℕ) (st : CastState P)
    (q : P) (shape : Shape) (ray : Ray) (power : ℚ) : CastState P × List ℕ :=
  let ri := rayShapeIntersection eps ray shape
  if isPositive eps ri.1 then
    if powerLtDiag power shape then
      (⟨ri.1, ri.2, q⟩, indexes)
    else
      (⟨ri.1, ri.2, q⟩, [])
  else
    (⟨ri.1, ri.2, st.payload⟩, [])

/-- `Tracer::castTree`: initialize `dist` to the minimal sentinel, then walk
the tree with `castVisit`; `r0` and `q0` are the incoming values of the
by-reference outputs `reflect_ray` and `reflect_payload`. -/
def castTree {P : Type} (eps : ℚ) (indexes : List ℕ) (t : TreeT P Shape)
    (ray : Ray) (power : ℚ) (fuel : ℕ) (r0 : Ray) (q0 : P) : CastState P :=
  (t.processNodes
    (fun st q shape (rp : Ray × ℚ) =>
      let r := castVisit eps indexes st q shape rp.1 rp.2
      (r.1, q, r.2))
    shapeChild fuel ⟨getMinQ, r0, q0⟩ (ray, power)).1

/-- C3 (code evaluation at the failing input): for the box [2,4]³ and the ray
from (0, 5/2, 5/2) along +x with power 1, the ray hits the box at
(2, 5/2, 5/2) at distance 2 and the diagonal exceeds the power, so the claim
requires the predicate to return the octant containing the intersection
point — octant 0 — yet the code returns [7], whose octant does not contain
the point: `predictChild` compares the point's coordinates against the
half-extent vector (2-4)/2 = (1,1,1) instead of the box midpoint (3,3,3). -/
theorem c3_buildTree_selects_wrong_octant :
    buildInsertPred epsF (List.range 8) ⟨⟨2, 2, 2⟩, ⟨4, 4, 4⟩⟩
      ⟨⟨0, 5/2, 5/2⟩, ⟨1, 0, 0⟩⟩ 1 = [7] ∧
    (rayShapeIntersection epsF ⟨⟨0, 5/2, 5/2⟩, ⟨1, 0, 0⟩⟩ ⟨⟨2, 2, 2⟩, ⟨4, 4, 4⟩⟩).1 = 2 ∧
    isPositive epsF (2 : ℚ) ∧
    (rayShapeIntersection epsF ⟨⟨0, 5/2, 5/2⟩, ⟨1, 0, 0⟩⟩ ⟨⟨2, 2, 2⟩, ⟨4, 4, 4⟩⟩).2.pos =
      ⟨2, 5/2, 5/2⟩ ∧
    powerLtDiag 1 ⟨⟨2, 2, 2⟩, ⟨4, 4, 4⟩⟩ ∧
    inVolume ⟨2, 5/2, 5/2⟩ (shapeChild 0 ⟨⟨2, 2, 2⟩, ⟨4, 4, 4⟩⟩) ∧
    ¬ inVolume ⟨2, 5/2, 5/2⟩ (shapeChild 7 ⟨⟨2, 2, 2⟩, ⟨4, 4, 4⟩⟩) := by
  norm_num [buildInsertPred, predictChild, rayShapeIntersection, selectAxis,
    rayFaceIntersection, isZeroP6, isPositive, isNegative, inVolume, inRange,
    addVectors, scaleVector, epsF, getMinQ, min_def, powerLtDiag, diagSq,
    shapeChild, shapeHalf, List.range_succ, List.filter]

/-- The C++ results are either the sentinel or a positive distance: the
returned intersection distance of `rayShapeIntersection` is `getMinQ` unless
it is positive. -/
theorem rayShape_res_cases (eps : ℚ) (ray : Ray) (shape : Shape) (h0 : 0 ≤ eps) :
    (rayShapeIntersection eps ray shape).1 = getMinQ ∨
      isPositive eps (rayShapeIntersection eps ray shape).1 := by
  rw [rayShape_eq_selectAxis]
  simp only [selectAxis]
  split_ifs with h2 h3 h3 <;> dsimp only at h2 h3 ⊢
  · exact Or.inr h3.1
  · exact Or.inr h2.1
  · exact Or.inr h3.1
  · rcases face_dichotomy eps ray shape h0 0 with ⟨_, hfx, hpx⟩ | ⟨_, hfx, _⟩
    · rw [hfx]
      exact Or.inr hpx
    · exact Or.inl hfx

/-- Concrete tree for the C2 counterexample: root payload 5 with shape
[0,2]³, a single child (payload 7) at slot 1. -/
def c2tree : TreeT ℕ Shape :=
  ⟨NodeT.mk 5 [none, some (NodeT.mk 7 (List.replicate 8 none)),
    none, none, none, none, none, none],
   ⟨⟨0, 0, 0⟩, ⟨2, 2, 2⟩⟩⟩

/-- C2 (counterexample): in `castTree` the output distance is NOT overwritten
only on positive intersections.  The ray from (1/2, 1/2, -1) along +z hits
the root box [0,2]³ at distance 1, but the subsequent visit to the (missed)
child at slot 1 overwrites the recorded distance with the sentinel and
rewrites the reflect ray, leaving only the payload; after the traversal the
outputs are the sentinel and a clobbered reflect ray even though a node was
hit. -/
theorem c2_counterexample_miss_overwrites :
    (rayShapeIntersection epsF ⟨⟨1/2, 1/2, -1⟩, ⟨0, 0, 1⟩⟩ c2tree.shape).1 = 1 ∧
    isPositive epsF (1 : ℚ) ∧
    castVisit epsF (List.range 8) ⟨1, ⟨⟨1/2, 1/2, 0⟩, ⟨0, 0, -1⟩⟩, 5⟩ 7
        (shapeChild 1 c2tree.shape) ⟨⟨1/2, 1/2, -1⟩, ⟨0, 0, 1⟩⟩ 1 =
      (⟨getMinQ, ⟨⟨0, 0, 0⟩, ⟨0, 0, 1⟩⟩, 5⟩, []) ∧
    getMinQ ≠ (1 : ℚ) ∧
    (⟨⟨0, 0, 0⟩, ⟨0, 0, 1⟩⟩ : Ray) ≠ ⟨⟨1/2, 1/2, 0⟩, ⟨0, 0, -1⟩⟩ ∧
    castTree epsF (List.range 8) c2tree ⟨⟨1/2, 1/2, -1⟩, ⟨0, 0, 1⟩⟩ 1 2
        ⟨⟨9, 9, 9⟩, ⟨9, 9, 9⟩⟩ 0 =
      ⟨getMinQ, ⟨⟨0, 0, 0⟩, ⟨0, 0, 1⟩⟩, 5⟩ := by
  norm_num [castTree, castVisit, c2tree, TreeT.processNodes, processPayload,
    childStep, rayShapeIntersection, selectAxis, rayFaceIntersection, isZeroP6,
    isPositive, isNegative, inVolume, inRange, addVectors, scaleVector, epsF,
    getMinQ, min_def, powerLtDiag, diagSq, shapeChild, shapeHalf,
    List.range_succ, List.replicate, occ, Ray.mk.injEq, Vec3.mk.injEq]

/-- C2 (amended): `castTree` starts the output distance at the minimal
sentinel, but every visited node assigns it the ray-shape intersection
result: a visit with a non-positive intersection resets the distance to the
sentinel and rewrites the reflect ray, leaving only the recorded payload
unchanged; descent continues only from hit nodes whose diagonal exceeds the
power, and a tree whose root is missed ends with the sentinel, the root's
reflect-ray output, and the incoming payload. -/
theorem c2_castTree_assigns_every_visit {P : Type} (eps : ℚ) (indexes : List ℕ)
    (h0 : 0 ≤ eps) :
    (∀ (st : CastState P) (q : P) (shape : Shape) (ray : Ray) (power : ℚ),
      ¬ isPositive eps (rayShapeIntersection eps ray shape).1 →
      castVisit eps indexes st q shape ray power =
        (⟨getMinQ, (rayShapeIntersection eps ray shape).2, st.payload⟩, [])) ∧
    (∀ (st : CastState P) (q : P) (shape : Shape) (ray : Ray) (power : ℚ),
      isPositive eps (rayShapeIntersection eps ray shape).1 →
      castVisit eps indexes st q shape ray power =
        (⟨(rayShapeIntersection eps ray shape).1,
          (rayShapeIntersection eps ray shape).2, q⟩,
         if powerLtDiag power shape then indexes else [])) ∧
    (∀ (t : TreeT P Shape) (ray : Ray) (power : ℚ) (fuel : ℕ) (r0 : Ray) (q0 : P),
      1 ≤ fuel → ¬ isPositive eps (rayShapeIntersection eps ray t.shape).1 →
      castTree eps indexes t ray power fuel r0 q0 =
        ⟨getMinQ, (rayShapeIntersection eps ray t.shape).2, q0⟩) := by
  have hmissvisit : ∀ (st : CastState P) (q : P) (shape : Shape) (ray : Ray) (power : ℚ),
      ¬ isPositive eps (rayShapeIntersection eps ray shape).1 →
      castVisit eps indexes st q shape ray power =
        (⟨getMinQ, (rayShapeIntersection eps ray shape).2, st.payload⟩, []) := by
    intro st q shape ray power hmiss
    rcases rayShape_res_cases eps ray shape h0 with hres | hres
    · simp only [castVisit]
      rw [if_neg hmiss, hres]
    · exact absurd hres hmiss
  refine ⟨hmissvisit, ?_, ?_⟩
  · intro st q shape ray power hpos
    simp only [castVisit]
    rw [if_pos hpos]
    split_ifs with hp <;> rfl
  · intro t ray power fuel r0 q0 hfuel hmiss
    obtain ⟨k, rfl⟩ : ∃ k, fuel = k + 1 := ⟨fuel - 1, by omega⟩
    obtain ⟨p, cs, hroot⟩ : ∃ p cs, t.root = NodeT.mk p cs := by
      cases hr : t.root with
      | mk p cs => exact ⟨p, cs, rfl⟩
    have hv := hmissvisit ⟨getMinQ, r0, q0⟩ p t.shape ray power hmiss
    unfold castTree TreeT.processNodes
    rw [hroot]
    simp only [processPayload, hv]
    rfl

/-- C2 (witness): the amended per-visit and whole-traversal statements
applied at a concrete missed box and a concrete missed tree. -/
theorem c2_witness :
    (¬ isPositive epsF
        (rayShapeIntersection epsF ⟨⟨0, 0, 0⟩, ⟨0, 0, 1⟩⟩ ⟨⟨5, 5, 5⟩, ⟨6, 6, 6⟩⟩).1) ∧
    castVisit epsF [0] ⟨3, ⟨⟨0, 0, 0⟩, ⟨0, 0, 1⟩⟩, 5⟩ 7 ⟨⟨5, 5, 5⟩, ⟨6, 6, 6⟩⟩
        ⟨⟨0, 0, 0⟩, ⟨0, 0, 1⟩⟩ 1 =
      (⟨getMinQ,
        (rayShapeIntersection epsF ⟨⟨0, 0, 0⟩, ⟨0, 0, 1⟩⟩ ⟨⟨5, 5, 5⟩, ⟨6, 6, 6⟩⟩).2, 5⟩,
       []) :=
  ⟨by
    norm_num [rayShapeIntersection, selectAxis, rayFaceIntersection, isZeroP6,
      isPositive, isNegative, inVolume, inRange, addVectors, scaleVector, epsF,
      getMinQ, min_def],
   (c2_castTree_assigns_every_visit epsF [0] (by norm_num [epsF])).1
     ⟨3, ⟨⟨0, 0, 0⟩, ⟨0, 0, 1⟩⟩, 5⟩ 7 ⟨⟨5, 5, 5⟩, ⟨6, 6, 6⟩⟩ ⟨⟨0, 0, 0⟩, ⟨0, 0, 1⟩⟩ 1
     (by
       norm_num [rayShapeIntersection, selectAxis, rayFaceIntersection, isZeroP6,
         isPositive, isNegative, inVolume, inRange, addVectors, scaleVector, epsF,
         getMinQ, min_def])⟩

end October
